import Mathlib

/-!
Verification of the plankton serialization codec and its streaming
container protocol (`src/python/plankton/codec.py` and
`src/python/plankton/container.py`), as a shallow embedding in Lean.

Conventions of the embedding:
* Python 2 values handled by the codec are modelled by the inductive
  type `Value` below.  A py2 `unicode` string is a list of code points
  (`Value.str`), a py2 byte string (`str`) is a list of byte values
  (`Value.bytes`), a `bytearray` is `Value.blob`.
* Object instances have identity; they live in an explicit heap
  (`List HeapObj` on the encoding side, `List DecObj` on the decoding
  side) and `Value.obj i` is a pointer to slot `i`.
* Machine integers are `Nat`/`Int` with explicit masking where the
  Python code masks; Python's unbounded ints need no masking.
* Code that raises an exception is modelled with `Option`/`DRes.err`.
* Loops whose termination is not structural take an explicit fuel
  argument; fuel exhaustion is `DRes.fuelOut` on the decoding side so
  that it can never be confused with a genuine decode error.
-/

namespace Plankton

/-- The universe of Python values the codec operates on (`visit_data`
dispatches on exactly these shapes).  `obj i` denotes the object
instance stored at index `i` of an explicit heap. -/
inductive Value where
  | int (n : Int)
  | str (s : List Nat)
  | bytes (s : List Nat)
  | blob (s : List Nat)
  | arr (vs : List Value)
  | map (es : List (Value × Value))
  | null
  | bool (b : Bool)
  | obj (i : Nat)

/-! ## Varint codec -/

/-- One step bound for `EncodingAssembler._encode_uint32`'s while loop.
The loop runs `while value >= 0x80`, replacing `value` by
`(value >> 7) - 1`, which strictly decreases, so `value` itself bounds
the number of iterations; the fuel argument only makes the recursion
structural and is always sufficient at `encodeUint32`'s call. -/
def encodeUint32Go : Nat → Nat → List Nat
  | 0, value => [value]
  | fuel + 1, value =>
    if 0x80 ≤ value then ((value &&& 0x7F) ||| 0x80) :: encodeUint32Go fuel ((value >>> 7) - 1)
    else [value]

/-- `EncodingAssembler._encode_uint32` (codec.py line 82): bijective
base-128 varint encoding.  The `assert value >= 0` holds trivially for
`Nat` input; callers that could pass a negative int guard separately. -/
def encodeUint32 (value : Nat) : List Nat := encodeUint32Go value value

/-- Loop body of `DataInputStream.decode_uint32_from` (codec.py line
249): while the previous byte had its high bit set, read another byte
and add `((byte & 0x7F) + 1) << offset`. -/
def decodeUint32Loop : Nat → Nat → Nat → List Nat → Option (Nat × List Nat)
  | result, _offset, next, [] =>
    if 0x80 ≤ next then none else some (result, [])
  | result, offset, next, b :: rest =>
    if 0x80 ≤ next then
      decodeUint32Loop (result + (((b &&& 0x7F) + 1) <<< offset)) (offset + 7) b rest
    else some (result, b :: rest)

/-- `DataInputStream.decode_uint32_from`: reads a varint from the front
of the byte list, returning the value and the unread remainder; `none`
models the IndexError raised when the stream is exhausted mid-integer. -/
def decodeUint32L : List Nat → Option (Nat × List Nat)
  | [] => none
  | b :: rest => decodeUint32Loop (b &&& 0x7F) 7 b rest

theorem orMask_and (x : Nat) (h : x < 128) : (x ||| 128) &&& 127 = x := by
  revert x; decide

theorem orMask_ge (x : Nat) (h : x < 128) : 128 ≤ x ||| 128 := by
  revert x; decide

theorem and127_eq_mod (x : Nat) : x &&& 127 = x % 128 :=
  Nat.and_pow_two_sub_one_eq_mod x 7

theorem shr7_eq_div (x : Nat) : x >>> 7 = x / 128 := Nat.shiftRight_eq_div_pow x 7

theorem encodeUint32Go_sufficient (fuel value : Nat) (h : value ≤ fuel) :
    encodeUint32Go fuel value = encodeUint32 value := by
  induction fuel using Nat.strong_induction_on generalizing value with
  | _ fuel ih =>
    match fuel with
    | 0 =>
      interval_cases value
      rfl
    | fuel + 1 =>
      rw [encodeUint32Go]
      by_cases hv : 0x80 ≤ value
      · have hlt : (value >>> 7) - 1 < value := by
          rw [shr7_eq_div]; omega
        have hv1 : 1 ≤ value := by omega
        rw [if_pos hv, ih fuel (by omega) _ (by omega)]
        conv_rhs => rw [encodeUint32]
        match hval : value, hv1 with
        | v + 1, _ =>
          rw [encodeUint32Go, if_pos (by omega)]
          rw [ih v (by omega) _ (by rw [shr7_eq_div]; omega)]
      · rw [if_neg hv]
        rw [encodeUint32]
        match hval : value with
        | 0 => rfl
        | v + 1 => rw [encodeUint32Go, if_neg (by omega)]

theorem decodeUint32Loop_encode (fuel : Nat) :
    ∀ value, value ≤ fuel → ∀ acc offset next rest, 0x80 ≤ next →
      decodeUint32Loop acc offset next (encodeUint32Go fuel value ++ rest) =
        some (acc + ((value + 1) <<< offset), rest) := by
  induction fuel using Nat.strong_induction_on with
  | _ fuel ih =>
    intro value hv acc offset next rest hnext
    match fuel with
    | 0 =>
      interval_cases value
      simp only [encodeUint32Go, List.cons_append, List.nil_append, decodeUint32Loop,
        if_pos hnext]
      rw [decodeUint32Loop.eq_def]
      cases rest <;> simp [hnext]
    | fuel + 1 =>
      rw [encodeUint32Go]
      by_cases hval : 0x80 ≤ value
      · rw [if_pos hval, List.cons_append, decodeUint32Loop, if_pos hnext]
        have hlt : (value >>> 7) - 1 ≤ fuel := by rw [shr7_eq_div]; omega
        rw [ih fuel (by omega) _ hlt _ _ _ _ (orMask_ge _ (by rw [and127_eq_mod]; omega))]
        congr 2
        rw [orMask_and _ (by rw [and127_eq_mod]; omega), and127_eq_mod, shr7_eq_div]
        rw [Nat.shiftLeft_eq, Nat.shiftLeft_eq, Nat.shiftLeft_eq, pow_add]
        have hd : value / 128 - 1 + 1 = value / 128 := by omega
        rw [hd]
        have hs : 128 * (value / 128) + value % 128 = value := Nat.div_add_mod value 128
        generalize value / 128 = q at hs ⊢
        generalize value % 128 = r at hs ⊢
        rw [← hs]
        ring
      · rw [if_neg hval, List.cons_append, decodeUint32Loop, if_pos hnext]
        rw [decodeUint32Loop.eq_def]
        have hb : ¬ (0x80 ≤ value) := hval
        have : value &&& 127 = value := by rw [and127_eq_mod]; omega
        cases rest <;> simp [hb, this]

theorem decodeUint32L_encode (value : Nat) (rest : List Nat) :
    decodeUint32L (encodeUint32 value ++ rest) = some (value, rest) := by
  rw [encodeUint32]
  by_cases hv : 0x80 ≤ value
  · have hv1 : 1 ≤ value := by omega
    match hval : value, hv1 with
    | v + 1, _ =>
      rw [encodeUint32Go, if_pos (by omega)]
      rw [List.cons_append, decodeUint32L]
      rw [decodeUint32Loop.eq_def]
      have hge : 0x80 ≤ ((v + 1) &&& 127) ||| 128 :=
        orMask_ge _ (by rw [and127_eq_mod]; omega)
      have hgo := decodeUint32Loop_encode v ((v + 1) >>> 7 - 1) (by rw [shr7_eq_div]; omega)
        ((((v + 1) &&& 127) ||| 128) &&& 127) 7 ((((v + 1) &&& 127) ||| 128)) rest hge
      cases henc : encodeUint32Go v ((v + 1) >>> 7 - 1) ++ rest with
      | nil =>
        exfalso
        rw [henc] at hgo
        rw [decodeUint32Loop.eq_def] at hgo
        simp [hge] at hgo
      | cons b bs =>
        rw [henc] at hgo
        rw [decodeUint32Loop.eq_def] at hgo
        simp only [if_pos hge] at hgo ⊢
        rw [hgo]
        congr 2
        rw [orMask_and _ (by rw [and127_eq_mod]; omega), and127_eq_mod, shr7_eq_div,
          Nat.shiftLeft_eq]
        have : (v + 1) / 128 - 1 + 1 = (v + 1) / 128 := by omega
        rw [this]
        have hsplit : v + 1 = 128 * ((v + 1) / 128) + (v + 1) % 128 :=
          (Nat.div_add_mod (v + 1) 128).symm
        omega
  · match value with
    | 0 => cases rest <;> simp [encodeUint32Go, decodeUint32L, decodeUint32Loop]
    | v + 1 =>
      rw [encodeUint32Go, if_neg hv, List.cons_append, decodeUint32L]
      rw [decodeUint32Loop.eq_def]
      have : (v + 1) &&& 127 = v + 1 := by rw [and127_eq_mod]; omega
      cases rest <;> simp [hv, this]

/-- C2: for every `n` in `[0, 2^32)`, decoding the varint bytes produced
by `EncodingAssembler._encode_uint32` with
`DataInputStream.decode_uint32_from` returns `n` (consuming exactly the
encoding), and the encoding is injective on that range: no two distinct
values produce the same byte sequence.  (Both facts in fact hold for
every natural number.) -/
theorem uint32_roundtrip_injective :
    (∀ n : Nat, n < 2 ^ 32 → decodeUint32L (encodeUint32 n) = some (n, [])) ∧
    (∀ m n : Nat, m < 2 ^ 32 → n < 2 ^ 32 → encodeUint32 m = encodeUint32 n → m = n) := by
  constructor
  · intro n _
    have := decodeUint32L_encode n []
    simpa using this
  · intro m n _ _ heq
    have hm := decodeUint32L_encode m []
    have hn := decodeUint32L_encode n []
    rw [heq] at hm
    rw [hm] at hn
    simpa using hn

/-- Witness for C2 at concrete inputs 300 and 5. -/
theorem uint32_roundtrip_injective_witness :
    decodeUint32L (encodeUint32 300) = some (300, []) ∧ (5 : Nat) = 5 :=
  ⟨uint32_roundtrip_injective.1 300 (by decide),
   uint32_roundtrip_injective.2 5 5 (by decide) (by decide) rfl⟩

/-! ## Zigzag signed encoding -/

/-- Python's `^` on unbounded ints: two's-complement xor, where the
negative int `-(n+1)` is the bitwise complement of `n`. -/
def pyXor : Int → Int → Int
  | .ofNat a, .ofNat b => .ofNat (a ^^^ b)
  | .ofNat a, .negSucc b => .negSucc (a ^^^ b)
  | .negSucc a, .ofNat b => .negSucc (a ^^^ b)
  | .negSucc a, .negSucc b => .ofNat (a ^^^ b)

/-- `EncodingAssembler.int32` pre-processing (codec.py line 69):
`(value << 1) ^ (value >> 31)`, with Python's `<<`/`>>` being
multiplication / floor division by a power of two. -/
def pyZigzag (value : Int) : Int := pyXor (value * 2) (Int.fdiv value (2 ^ 31))

/-- `DataInputStream._decode_int32` post-processing (codec.py line 268):
`(value >> 1) ^ (-(value & 1))` applied to the decoded unsigned varint. -/
def pyUnzigzag (value : Nat) : Int :=
  pyXor ((value >>> 1 : Nat) : Int) (-((value &&& 1 : Nat) : Int))

theorem pyXor_natCast_zero (a : Nat) : pyXor (a : Int) 0 = a := by
  show pyXor (Int.ofNat a) (Int.ofNat 0) = Int.ofNat a
  show Int.ofNat (a ^^^ 0) = Int.ofNat a
  rw [Nat.xor_zero]

theorem pyXor_natCast_negOne (a : Nat) : pyXor (a : Int) (-1) = Int.negSucc a := by
  show pyXor (Int.ofNat a) (Int.negSucc 0) = Int.negSucc a
  show Int.negSucc (a ^^^ 0) = Int.negSucc a
  rw [Nat.xor_zero]

theorem pyXor_negSucc_negOne (a : Nat) : pyXor (Int.negSucc a) (-1) = (a : Int) := by
  show pyXor (Int.negSucc a) (Int.negSucc 0) = Int.ofNat a
  show Int.ofNat (a ^^^ 0) = Int.ofNat a
  rw [Nat.xor_zero]

theorem pyZigzag_eq (v : Int) (hlo : -(2 ^ 31) ≤ v) (hhi : v < 2 ^ 31) :
    pyZigzag v = if 0 ≤ v then 2 * v else -2 * v - 1 := by
  rw [pyZigzag, Int.fdiv_eq_ediv _ (by positivity)]
  by_cases h0 : 0 ≤ v
  · have hd : v / 2 ^ 31 = 0 := Int.ediv_eq_zero_of_lt h0 hhi
    rw [hd, if_pos h0]
    obtain ⟨n, rfl⟩ := Int.eq_ofNat_of_zero_le h0
    have h2 : (n : Int) * 2 = ((n * 2 : Nat) : Int) := by push_cast; ring
    rw [h2, pyXor_natCast_zero]
    push_cast; ring
  · obtain ⟨m, rfl⟩ : ∃ m : Nat, v = Int.negSucc m :=
      ⟨(-v - 1).toNat, by rw [Int.negSucc_eq]; omega⟩
    have hd : Int.negSucc m / 2 ^ 31 = -1 := by
      rw [Int.negSucc_eq] at hlo ⊢; omega
    rw [hd, if_neg h0]
    have h2 : Int.negSucc m * 2 = Int.negSucc (2 * m + 1) := by
      rw [Int.negSucc_eq, Int.negSucc_eq]; push_cast; ring
    rw [h2, pyXor_negSucc_negOne, Int.negSucc_eq]
    omega

theorem pyZigzag_nonneg (v : Int) (hlo : -(2 ^ 31) ≤ v) (hhi : v < 2 ^ 31) :
    0 ≤ pyZigzag v := by
  rw [pyZigzag_eq v hlo hhi]
  split <;> omega

theorem pyUnzigzag_pyZigzag (v : Int) (hlo : -(2 ^ 31) ≤ v) (hhi : v < 2 ^ 31) :
    pyUnzigzag (pyZigzag v).toNat = v := by
  rw [pyZigzag_eq v hlo hhi, pyUnzigzag]
  by_cases h0 : 0 ≤ v
  · rw [if_pos h0]
    obtain ⟨n, rfl⟩ := Int.eq_ofNat_of_zero_le h0
    have ht : ((2 : Int) * (n : Int)).toNat = 2 * n := by omega
    rw [ht, Nat.shiftRight_one, Nat.and_one_is_mod]
    have h1 : 2 * n / 2 = n := by omega
    have h2 : 2 * n % 2 = 0 := by omega
    rw [h1, h2]
    rw [Nat.cast_zero, neg_zero, pyXor_natCast_zero]
  · rw [if_neg h0]
    obtain ⟨m, rfl⟩ : ∃ m : Nat, v = Int.negSucc m :=
      ⟨(-v - 1).toNat, by rw [Int.negSucc_eq]; omega⟩
    have ht : ((-2 : Int) * Int.negSucc m - 1).toNat = 2 * m + 1 := by
      rw [Int.negSucc_eq]; omega
    rw [ht, Nat.shiftRight_one, Nat.and_one_is_mod]
    have h1 : (2 * m + 1) / 2 = m := by omega
    have h2 : (2 * m + 1) % 2 = 1 := by omega
    rw [h1, h2]
    have h3 : (-((1 : Nat) : Int)) = -1 := by norm_num
    rw [h3, pyXor_natCast_negOne]

/-! ## String codecs

`codecs.encode`/`codecs.decode` are Python standard-library builtins;
they are modelled here from the US-ASCII and UTF-8 specifications (the
registered Shift_JIS encoding is not modelled: no claim exercises it,
and its byte table is external to this repository). -/

/-- US-ASCII encoding of a unicode string: identity on code points
below 128, `UnicodeEncodeError` (`none`) otherwise. -/
def asciiEncode (s : List Nat) : Option (List Nat) :=
  if s.all (· < 128) then some s else none

/-- US-ASCII decoding of bytes: identity below 128, error otherwise. -/
def asciiDecode (bs : List Nat) : Option (List Nat) :=
  if bs.all (· < 128) then some bs else none

/-- Standard UTF-8 encoding of a single scalar value below 0x110000. -/
def utf8EncodeChar (c : Nat) : List Nat :=
  if c < 0x80 then [c]
  else if c < 0x800 then [0xC0 + c / 64, 0x80 + c % 64]
  else if c < 0x10000 then [0xE0 + c / 4096, 0x80 + c / 64 % 64, 0x80 + c % 64]
  else [0xF0 + c / 262144, 0x80 + c / 4096 % 64, 0x80 + c / 64 % 64, 0x80 + c % 64]

/-- UTF-8 encoding of a whole string; code points at or above 0x110000
cannot occur in a py2 unicode string and are rejected. -/
def utf8Encode (s : List Nat) : Option (List Nat) :=
  if s.all (· < 0x110000) then some (s.foldr (fun c acc => utf8EncodeChar c ++ acc) []) else none

/-- Decode one UTF-8 character from the front of a byte list (strict:
overlong forms and sequences above U+10FFFF are rejected, like py2's
decoder; py2 accepts encoded surrogates and so do we). -/
def utf8DecodeChar : List Nat → Option (Nat × List Nat)
  | [] => none
  | b :: rest =>
    if b < 0x80 then some (b, rest)
    else if b < 0xC0 then none
    else if b < 0xE0 then
      match rest with
      | b1 :: r =>
        if 0x80 ≤ b1 ∧ b1 < 0xC0 then
          let c := (b - 0xC0) * 64 + (b1 - 0x80)
          if 0x80 ≤ c then some (c, r) else none
        else none
      | _ => none
    else if b < 0xF0 then
      match rest with
      | b1 :: b2 :: r =>
        if (0x80 ≤ b1 ∧ b1 < 0xC0) ∧ (0x80 ≤ b2 ∧ b2 < 0xC0) then
          let c := (b - 0xE0) * 4096 + (b1 - 0x80) * 64 + (b2 - 0x80)
          if 0x800 ≤ c then some (c, r) else none
        else none
      | _ => none
    else if b < 0xF8 then
      match rest with
      | b1 :: b2 :: b3 :: r =>
        if (0x80 ≤ b1 ∧ b1 < 0xC0) ∧ (0x80 ≤ b2 ∧ b2 < 0xC0) ∧ (0x80 ≤ b3 ∧ b3 < 0xC0) then
          let c := (b - 0xF0) * 262144 + (b1 - 0x80) * 4096 + (b2 - 0x80) * 64 + (b3 - 0x80)
          if 0x10000 ≤ c ∧ c < 0x110000 then some (c, r) else none
        else none
      | _ => none
    else none

/-- Decode a whole UTF-8 byte list (fuel = list length suffices since
every character consumes at least one byte). -/
def utf8DecodeGo : Nat → List Nat → Option (List Nat)
  | 0, [] => some []
  | 0, _ :: _ => none
  | _ + 1, [] => some []
  | fuel + 1, b :: rest =>
    (utf8DecodeChar (b :: rest)).bind fun cr =>
      (utf8DecodeGo fuel cr.2).map fun cs => cr.1 :: cs

theorem utf8DecodeGo_nil (fuel : Nat) : utf8DecodeGo fuel [] = some [] := by
  cases fuel <;> rfl

def utf8Decode (bs : List Nat) : Option (List Nat) := utf8DecodeGo bs.length bs

theorem utf8DecodeChar_encodeChar (c : Nat) (hc : c < 0x110000) (rest : List Nat) :
    utf8DecodeChar (utf8EncodeChar c ++ rest) = some (c, rest) := by
  rw [utf8EncodeChar]
  by_cases h1 : c < 0x80
  · rw [if_pos h1]
    simp only [List.cons_append, List.nil_append, utf8DecodeChar, if_pos h1]
  · rw [if_neg h1]
    by_cases h2 : c < 0x800
    · rw [if_pos h2]
      simp only [List.cons_append, List.nil_append]
      rw [utf8DecodeChar.eq_def]
      have e1 : ¬ (0xC0 + c / 64 < 0x80) := by omega
      have e2 : ¬ (0xC0 + c / 64 < 0xC0) := by omega
      have e3 : 0xC0 + c / 64 < 0xE0 := by omega
      simp only [if_neg e1, if_neg e2, if_pos e3]
      have e4 : 0x80 ≤ 0x80 + c % 64 ∧ 0x80 + c % 64 < 0xC0 := by omega
      rw [if_pos e4]
      have e5 : 0xC0 + c / 64 - 0xC0 = c / 64 := by omega
      have e6 : 0x80 + c % 64 - 0x80 = c % 64 := by omega
      rw [e5, e6]
      have e7 : c / 64 * 64 + c % 64 = c := by omega
      rw [e7, if_pos (by omega)]
    · rw [if_neg h2]
      by_cases h3 : c < 0x10000
      · rw [if_pos h3]
        simp only [List.cons_append, List.nil_append]
        rw [utf8DecodeChar.eq_def]
        have e1 : ¬ (0xE0 + c / 4096 < 0x80) := by omega
        have e2 : ¬ (0xE0 + c / 4096 < 0xC0) := by omega
        have e3 : ¬ (0xE0 + c / 4096 < 0xE0) := by omega
        have e4 : 0xE0 + c / 4096 < 0xF0 := by omega
        simp only [if_neg e1, if_neg e2, if_neg e3, if_pos e4]
        have e5 : (0x80 ≤ 0x80 + c / 64 % 64 ∧ 0x80 + c / 64 % 64 < 0xC0) ∧
            (0x80 ≤ 0x80 + c % 64 ∧ 0x80 + c % 64 < 0xC0) := by omega
        rw [if_pos e5]
        have e6 : 0xE0 + c / 4096 - 0xE0 = c / 4096 := by omega
        have e7 : 0x80 + c / 64 % 64 - 0x80 = c / 64 % 64 := by omega
        have e8 : 0x80 + c % 64 - 0x80 = c % 64 := by omega
        rw [e6, e7, e8]
        have e9 : c / 4096 * 4096 + c / 64 % 64 * 64 + c % 64 = c := by omega
        rw [e9, if_pos (by omega)]
      · rw [if_neg h3]
        simp only [List.cons_append, List.nil_append]
        rw [utf8DecodeChar.eq_def]
        have e1 : ¬ (0xF0 + c / 262144 < 0x80) := by omega
        have e2 : ¬ (0xF0 + c / 262144 < 0xC0) := by omega
        have e3 : ¬ (0xF0 + c / 262144 < 0xE0) := by omega
        have e4 : ¬ (0xF0 + c / 262144 < 0xF0) := by omega
        have e5 : 0xF0 + c / 262144 < 0xF8 := by omega
        simp only [if_neg e1, if_neg e2, if_neg e3, if_neg e4, if_pos e5]
        have e6 : (0x80 ≤ 0x80 + c / 4096 % 64 ∧ 0x80 + c / 4096 % 64 < 0xC0) ∧
            (0x80 ≤ 0x80 + c / 64 % 64 ∧ 0x80 + c / 64 % 64 < 0xC0) ∧
            (0x80 ≤ 0x80 + c % 64 ∧ 0x80 + c % 64 < 0xC0) := by omega
        rw [if_pos e6]
        have e7 : 0xF0 + c / 262144 - 0xF0 = c / 262144 := by omega
        have e8 : 0x80 + c / 4096 % 64 - 0x80 = c / 4096 % 64 := by omega
        have e9 : 0x80 + c / 64 % 64 - 0x80 = c / 64 % 64 := by omega
        have e10 : 0x80 + c % 64 - 0x80 = c % 64 := by omega
        rw [e7, e8, e9, e10]
        have e11 : c / 262144 * 262144 + c / 4096 % 64 * 4096 + c / 64 % 64 * 64 + c % 64 = c := by
          omega
        rw [e11, if_pos (by omega)]

theorem utf8EncodeChar_ne_nil (c : Nat) : utf8EncodeChar c ≠ [] := by
  rw [utf8EncodeChar]
  split_ifs <;> simp

theorem utf8DecodeGo_encode (fuel : Nat) :
    ∀ s : List Nat, (∀ c ∈ s, c < 0x110000) →
      (s.foldr (fun c acc => utf8EncodeChar c ++ acc) []).length ≤ fuel →
      utf8DecodeGo fuel (s.foldr (fun c acc => utf8EncodeChar c ++ acc) []) = some s := by
  induction fuel using Nat.strong_induction_on with
  | _ fuel ih =>
    intro s hs hlen
    match s with
    | [] => rw [List.foldr_nil, utf8DecodeGo_nil]
    | c :: cs =>
      rw [List.foldr_cons] at hlen ⊢
      have hc : c < 0x110000 := hs c (List.mem_cons_self c cs)
      have hne := utf8EncodeChar_ne_nil c
      have hdec := utf8DecodeChar_encodeChar c hc (List.foldr (fun x acc =>
        utf8EncodeChar x ++ acc) [] cs)
      match henc : utf8EncodeChar c with
      | [] => exact absurd henc hne
      | b :: bs =>
        rw [henc] at hlen hdec
        rw [List.length_append, List.length_cons] at hlen
        rw [List.cons_append]
        have hf : 1 ≤ fuel := by omega
        match fuel, hf, hlen, ih with
        | fuel + 1, _, hlen, ih =>
          rw [utf8DecodeGo, ← List.cons_append]
          simp only [hdec, Option.some_bind]
          rw [ih fuel (by omega) cs (fun x hx => hs x (List.mem_cons_of_mem c hx)) (by omega)]
          rw [Option.map_some']

theorem utf8Decode_utf8Encode (s : List Nat) (hs : ∀ c ∈ s, c < 0x110000) (bs : List Nat)
    (henc : utf8Encode s = some bs) : utf8Decode bs = some s := by
  rw [utf8Encode, if_pos (by simp only [List.all_eq_true, decide_eq_true_eq]; exact hs)] at henc
  cases henc
  rw [utf8Decode]
  exact utf8DecodeGo_encode _ s hs le_rfl

/-! ## Python comparison and `sorted` -/

/-- Lexicographic ≤ on lists of naturals: CPython 2's comparison of two
unicode strings (by code point) or two byte strings (by byte value). -/
def lexLe : List Nat → List Nat → Bool
  | [], _ => true
  | _ :: _, [] => false
  | a :: as, b :: bs =>
    if a < b then true
    else if b < a then false
    else lexLe as bs

/-- Rank used to order values of different runtime shapes.  CPython 2
places `None` below everything, then numbers below every non-number;
remaining cross-type order (by type name in CPython 2) is an arbitrary
but total extension here.  All claims sort keys drawn from a single
shape (all ints or all unicode strings), where this model is faithful. -/
def vrank : Value → Nat
  | .null => 0
  | .int _ => 1
  | .bool _ => 1
  | .arr _ => 2
  | .blob _ => 3
  | .map _ => 4
  | .obj _ => 5
  | .bytes _ => 6
  | .str _ => 7

/-- Numeric value of a Python number: bools are ints (`True == 1`). -/
def numValH : Value → Option Int
  | .int n => some n
  | .bool b => some (if b then 1 else 0)
  | _ => none

/-- Numeric sort key of a rank-1 (number) value. -/
def keyNum : Value → Int
  | .int n => n
  | .bool b => if b then 1 else 0
  | _ => 0

/-- Content sort key of a string-like (str / bytes / bytearray) value. -/
def keyStr : Value → List Nat
  | .str s => s
  | .bytes s => s
  | .blob s => s
  | _ => []

/-- Identity sort key of an object value. -/
def keyObj : Value → Nat
  | .obj i => i
  | _ => 0

/-- The total comparison behind Python 2's `sorted` as used on map keys
and field names: numbers by value, strings lexicographically, `None`
below numbers below other types; ties between shapes we never sort
resolve to `true` (total but not antisymmetric there). -/
def pyLEb (a b : Value) : Bool :=
  if vrank a < vrank b then true
  else if vrank b < vrank a then false
  else if vrank a = 1 then decide (keyNum a ≤ keyNum b)
  else if vrank a = 3 ∨ vrank a = 6 ∨ vrank a = 7 then lexLe (keyStr a) (keyStr b)
  else if vrank a = 5 then decide (keyObj a ≤ keyObj b)
  else true

theorem lexLe_total (s t : List Nat) : lexLe s t = true ∨ lexLe t s = true := by
  induction s generalizing t with
  | nil => left; rfl
  | cons a as ih =>
    cases t with
    | nil => right; rfl
    | cons b bs =>
      rw [lexLe, lexLe]
      rcases Nat.lt_trichotomy a b with h | h | h
      · left; rw [if_pos h]
      · subst h
        rw [if_neg (lt_irrefl a), if_neg (lt_irrefl a)]
        simpa using ih bs
      · right; rw [if_pos h]

theorem lexLe_antisymm (s t : List Nat) (h1 : lexLe s t = true) (h2 : lexLe t s = true) :
    s = t := by
  induction s generalizing t with
  | nil =>
    cases t with
    | nil => rfl
    | cons b bs => simp [lexLe] at h2
  | cons a as ih =>
    cases t with
    | nil => simp [lexLe] at h1
    | cons b bs =>
      rw [lexLe] at h1 h2
      rcases Nat.lt_trichotomy a b with h | h | h
      · rw [if_neg (by omega), if_pos h] at h2
        exact absurd h2 (by simp)
      · subst h
        rw [if_neg (lt_irrefl a), if_neg (lt_irrefl a)] at h1 h2
        rw [ih bs h1 h2]
      · rw [if_neg (by omega), if_pos h] at h1
        exact absurd h1 (by simp)

theorem pyLEb_total (a b : Value) : pyLEb a b = true ∨ pyLEb b a = true := by
  rw [pyLEb, pyLEb]
  by_cases h1 : vrank a < vrank b
  · left; rw [if_pos h1]
  · by_cases h2 : vrank b < vrank a
    · right; rw [if_pos h2]
    · have he : vrank b = vrank a := by omega
      rw [if_neg h1, if_neg h2, if_neg h2, if_neg h1, he]
      by_cases hr1 : vrank a = 1
      · rw [if_pos hr1, if_pos hr1]
        rcases Int.le_total (keyNum a) (keyNum b) with h | h
        · left; simpa using h
        · right; simpa using h
      · rw [if_neg hr1, if_neg hr1]
        by_cases hr2 : vrank a = 3 ∨ vrank a = 6 ∨ vrank a = 7
        · rw [if_pos hr2, if_pos hr2]
          exact lexLe_total (keyStr a) (keyStr b)
        · rw [if_neg hr2, if_neg hr2]
          by_cases hr3 : vrank a = 5
          · rw [if_pos hr3, if_pos hr3]
            rcases Nat.le_total (keyObj a) (keyObj b) with h | h
            · left; simpa using h
            · right; simpa using h
          · rw [if_neg hr3, if_neg hr3]
            left; rfl

theorem pyLEb_int_antisymm (x y : Int) (h1 : pyLEb (.int x) (.int y) = true)
    (h2 : pyLEb (.int y) (.int x) = true) : Value.int x = Value.int y := by
  have hx : x ≤ y := of_decide_eq_true h1
  have hy : y ≤ x := of_decide_eq_true h2
  congr 1
  omega

theorem pyLEb_str_antisymm (x y : List Nat) (h1 : pyLEb (.str x) (.str y) = true)
    (h2 : pyLEb (.str y) (.str x) = true) : Value.str x = Value.str y := by
  have hx : lexLe x y = true := h1
  have hy : lexLe y x = true := h2
  rw [lexLe_antisymm x y hx hy]

theorem lexLe_trans (a b c : List Nat) (h1 : lexLe a b = true) (h2 : lexLe b c = true) :
    lexLe a c = true := by
  induction a generalizing b c with
  | nil => rfl
  | cons x xs ih =>
    cases b with
    | nil => simp [lexLe] at h1
    | cons y ys =>
      cases c with
      | nil => simp [lexLe] at h2
      | cons z zs =>
        rw [lexLe] at h1 h2 ⊢
        rcases Nat.lt_trichotomy x y with hxy | hxy | hxy
        · rcases Nat.lt_trichotomy y z with hyz | hyz | hyz
          · rw [if_pos (by omega)]
          · subst hyz; rw [if_pos hxy]
          · rw [if_neg (by omega), if_pos hyz] at h2
            exact absurd h2 (by simp)
        · subst hxy
          rw [if_neg (lt_irrefl x), if_neg (lt_irrefl x)] at h1
          rcases Nat.lt_trichotomy x z with hyz | hyz | hyz
          · rw [if_pos hyz]
          · subst hyz
            rw [if_neg (lt_irrefl x), if_neg (lt_irrefl x)] at h2 ⊢
            exact ih ys zs h1 h2
          · rw [if_neg (by omega), if_pos hyz] at h2
            exact absurd h2 (by simp)
        · rw [if_neg (by omega), if_pos hxy] at h1
          exact absurd h1 (by simp)

theorem pyLEb_rank_le (x y : Value) (h : pyLEb x y = true) : vrank x ≤ vrank y := by
  rw [pyLEb] at h
  by_cases h1 : vrank x < vrank y
  · omega
  · by_cases h2 : vrank y < vrank x
    · rw [if_neg h1, if_pos h2] at h
      exact absurd h (by simp)
    · omega

theorem pyLEb_trans (a b c : Value) (h1 : pyLEb a b = true) (h2 : pyLEb b c = true) :
    pyLEb a c = true := by
  have hab := pyLEb_rank_le a b h1
  have hbc := pyLEb_rank_le b c h2
  rw [pyLEb]
  by_cases hac : vrank a < vrank c
  · rw [if_pos hac]
  · have heq1 : vrank a = vrank b := by omega
    have heq2 : vrank b = vrank c := by omega
    rw [pyLEb, if_neg (by omega), if_neg (by omega)] at h1 h2
    rw [if_neg hac, if_neg (by omega)]
    by_cases hr1 : vrank a = 1
    · rw [if_pos hr1] at h1 ⊢
      rw [if_pos (by omega)] at h2
      have u1 : keyNum a ≤ keyNum b := of_decide_eq_true h1
      have u2 : keyNum b ≤ keyNum c := of_decide_eq_true h2
      simpa using le_trans u1 u2
    · rw [if_neg hr1] at h1 ⊢
      rw [if_neg (by omega)] at h2
      by_cases hr2 : vrank a = 3 ∨ vrank a = 6 ∨ vrank a = 7
      · rw [if_pos hr2] at h1 ⊢
        rw [if_pos (by omega)] at h2
        exact lexLe_trans _ _ _ h1 h2
      · rw [if_neg hr2] at h1 ⊢
        rw [if_neg (by omega)] at h2
        by_cases hr3 : vrank a = 5
        · rw [if_pos hr3] at h1 ⊢
          rw [if_pos (by omega)] at h2
          have u1 : keyObj a ≤ keyObj b := of_decide_eq_true h1
          have u2 : keyObj b ≤ keyObj c := of_decide_eq_true h2
          simpa using le_trans u1 u2
        · rw [if_neg hr3]

/-- One insertion step of the comparison sort behind Python's
`sorted`: entries are ordered by key.  Sorting the dict's entry list by
key models `for k in sorted(value.keys()): ... value[k]`; for an actual
Python dict the keys are distinct, so both produce the same key/value
sequence. -/
def insortEntry (x : Value × Value) : List (Value × Value) → List (Value × Value)
  | [] => [x]
  | y :: ys => if pyLEb x.1 y.1 then x :: y :: ys else y :: insortEntry x ys

def pySortEntries : List (Value × Value) → List (Value × Value)
  | [] => []
  | e :: es => insortEntry e (pySortEntries es)

theorem insortEntry_perm (x : Value × Value) (l : List (Value × Value)) :
    (insortEntry x l).Perm (x :: l) := by
  induction l with
  | nil => rfl
  | cons y ys ih =>
    rw [insortEntry]
    by_cases h : pyLEb x.1 y.1 = true
    · rw [if_pos h]
    · rw [if_neg h]
      exact ((ih.cons y).trans (List.Perm.swap x y ys))

theorem pySortEntries_perm (l : List (Value × Value)) : (pySortEntries l).Perm l := by
  induction l with
  | nil => rfl
  | cons e es ih =>
    rw [pySortEntries]
    exact (insortEntry_perm e (pySortEntries es)).trans (ih.cons e)

theorem insortEntry_sorted (x : Value × Value) (l : List (Value × Value))
    (h : l.Pairwise (fun e f => pyLEb e.1 f.1 = true)) :
    (insortEntry x l).Pairwise (fun e f => pyLEb e.1 f.1 = true) := by
  induction l with
  | nil => simp [insortEntry]
  | cons y ys ih =>
    rw [insortEntry]
    rw [List.pairwise_cons] at h
    by_cases hc : pyLEb x.1 y.1 = true
    · rw [if_pos hc]
      refine List.Pairwise.cons ?_ (List.Pairwise.cons h.1 h.2)
      intro e he
      rcases List.mem_cons.mp he with rfl | he
      · exact hc
      · exact pyLEb_trans x.1 y.1 e.1 hc (h.1 e he)
    · rw [if_neg hc]
      refine List.Pairwise.cons ?_ (ih h.2)
      intro e he
      have := (insortEntry_perm x ys).mem_iff.mp he
      rcases List.mem_cons.mp this with rfl | he2
      · rcases pyLEb_total e.1 y.1 with hx | hx
        · exact absurd hx hc
        · exact hx
      · exact h.1 e he2

theorem pySortEntries_sorted (l : List (Value × Value)) :
    (pySortEntries l).Pairwise (fun e f => pyLEb e.1 f.1 = true) := by
  induction l with
  | nil => exact List.Pairwise.nil
  | cons e es ih => exact insortEntry_sorted e _ ih

/-- Two sorted lists that are permutations of each other and whose
elements admit antisymmetry are equal. -/
theorem sorted_perm_entries_eq (l1 l2 : List (Value × Value))
    (h1 : l1.Pairwise (fun e f => pyLEb e.1 f.1 = true))
    (h2 : l2.Pairwise (fun e f => pyLEb e.1 f.1 = true))
    (hp : l1.Perm l2)
    (ha : ∀ e ∈ l1, ∀ f ∈ l1, pyLEb e.1 f.1 = true → pyLEb f.1 e.1 = true → e = f) :
    l1 = l2 := by
  induction l1 generalizing l2 with
  | nil => exact (List.Perm.eq_nil hp.symm).symm
  | cons a t1 ih =>
    cases l2 with
    | nil => exact absurd (List.Perm.eq_nil hp) (by simp)
    | cons b t2 =>
      rw [List.pairwise_cons] at h1 h2
      have hab : a = b := by
        have hamem : a ∈ b :: t2 := hp.mem_iff.mp (List.mem_cons_self a t1)
        have hbmem : b ∈ a :: t1 := hp.symm.mem_iff.mp (List.mem_cons_self b t2)
        rcases List.mem_cons.mp hamem with rfl | ha2
        · rfl
        · rcases List.mem_cons.mp hbmem with rfl | hb2
          · rfl
          · exact ha a (List.mem_cons_self a t1) b (List.mem_cons_of_mem a hb2)
              (h1.1 b hb2) (h2.1 a ha2)
      subst hab
      have hp2 : t1.Perm t2 := hp.cons_inv
      rw [ih t2 h1.2 h2.2 hp2 (fun e he f hf => ha e (List.mem_cons_of_mem a he) f
        (List.mem_cons_of_mem a hf))]

/-! ## StringCodec -/

/-- `codecs.encode(string, name)` for the encoding enums the codec
registers (US-ASCII = 3, UTF-8 = 106; Shift_JIS = 17 is registered
upstream but its external byte table is not modelled — no claim uses
it, and feeding enum 17 here behaves like an unregistered encoding). -/
def pyEncodeEnc : Nat → List Nat → Option (List Nat)
  | 3, s => asciiEncode s
  | 106, s => utf8Encode s
  | _, _ => none

/-- `codecs.decode(bytes, name)`, same coverage as `pyEncodeEnc`. -/
def pyDecodeEnc : Nat → List Nat → Option (List Nat)
  | 3, bs => asciiDecode bs
  | 106, bs => utf8Decode bs
  | _, _ => none

/-- `StringCodec.encode` (codec.py line 444): try the configured
default encoding; on `UnicodeEncodeError` fall back to UTF-8 and mark
the result with the fallback enum `UTF_8 = 106`.  A `StringCodec` is
identified by its default encoding's enum (its normalized name). -/
def scEncode (defaultEnum : Nat) (s : List Nat) : Option (List Nat × Option Nat) :=
  match pyEncodeEnc defaultEnum s with
  | some bs => some (bs, none)
  | none =>
    match utf8Encode s with
    | some bs => some (bs, some 106)
    | none => none

/-! ## Encoder

`DataOutputStream` / `EncodingAssembler` / the module-level class
registry of codec.py. -/

/-- An object instance on the encoding side: its Python class (an
abstract class id) and — for `DefaultObject`-shaped instances — its
`header` and `payload` attributes. -/
structure HeapObj where
  cls : Nat
  hdr : Value
  fields : List (Value × Value)

/-- A resolved serialization descriptor (`ClassMetaInfo` after
`ensure_analyzed`): header getter, payload getter and replacement step,
as functions of the heap and the instance they are applied to.
`get_replacement` returns the instance itself when no replacer is
registered. -/
structure MetaInfo where
  getHeader : List HeapObj → Nat → Value
  getPayload : List HeapObj → Nat → List (Value × Value)
  replacement : List HeapObj → Nat → Nat

/-- `ClassRegistry.get_nearest_meta_info` after warmup, as a function
from class id to the nearest registered descriptor (the memoized
ancestor walk computes exactly such a function). -/
def Registry : Type := Nat → Option MetaInfo

/-- `DefaultObject`'s meta info: the decorated `get_header` returns
`self.header`, `get_payload` returns `self.payload`, and there is no
replacer. -/
def defaultObjectMeta : MetaInfo where
  getHeader := fun heap i => ((heap.get? i).map HeapObj.hdr).getD .null
  getPayload := fun heap i => ((heap.get? i).map HeapObj.fields).getD []
  replacement := fun _ i => i

/-- The registry in the state codec.py leaves it at import time: every
encodable object in our heaps is a `DefaultObject` instance, so every
class resolves to `DefaultObject`'s meta info. -/
def defaultRegistry : Registry := fun _ => some defaultObjectMeta

/-- The meta-info / replacement fixpoint loop at the top of
`DataOutputStream.visit_object` (codec.py lines 164-174): look up the
nearest meta info of the current object's class (absence raises), apply
the replacement, and if it returned a different object start over with
the replacement.  `none` models both the raised exception and a
diverging replacement chain (which would hang the Python loop). -/
def resolveMeta (reg : Registry) (heap : List HeapObj) : Nat → Nat → Option (MetaInfo × Nat)
  | 0, _ => none
  | fuel + 1, i =>
    match heap.get? i with
    | none => none
    | some o =>
      match reg o.cls with
      | none => none
      | some mi =>
        let r := mi.replacement heap i
        if r = i then some (mi, i) else resolveMeta reg heap fuel r

/-- Encoder session state: the assembler's byte buffer, the identity
keyed `object_index` (id ↦ offset, with later bindings shadowing
earlier ones like dict assignment), and the `object_offset` counter. -/
structure EncSt where
  bytes : List Nat
  idx : List (Nat × Int)
  off : Nat

/-- Lookup in the encoder's `object_index` dict. -/
def lookupIdx : List (Nat × Int) → Nat → Option Int
  | [], _ => none
  | (j, v) :: rest, i => if j = i then some v else lookupIdx rest i

/-- Append assembler output. -/
def emit (bs : List Nat) (st : EncSt) : EncSt := { st with bytes := st.bytes ++ bs }

/-- Pending work of the encoder: a value to visit
(`DataOutputStream.write_object`), the element loop of `visit_array`,
or the sorted field loop shared by `visit_map` and `visit_object`. -/
inductive EReq where
  | top (v : Value)
  | list (vs : List Value)
  | kvs (es : List (Value × Value))

/-- The encoder: `DataOutputStream.write_object` with the `visit_*`
methods it dispatches to, defunctionalized over `EReq` with a
structural fuel so that concrete runs reduce.  `none` models a raised
exception (unserializable value, failed assertion) as well as fuel
exhaustion; general theorems quantify over the fuel, which stands for
"the Python loop runs to completion". -/
def enc (reg : Registry) (heap : List HeapObj) (codec : Nat) :
    Nat → EReq → EncSt → Option EncSt
  | 0, _, _ => none
  | _ + 1, .top (.int n), st =>
    -- visit_int: tag then zigzag varint; _encode_uint32 asserts 0 ≤ zigzag.
    let z := pyZigzag n
    if 0 ≤ z then some (emit (0 :: encodeUint32 z.toNat) st) else none
  | _ + 1, .top (.str s), st =>
    -- visit_string: encode via the string codec, tag 1 for the default
    -- encoding, tag 13 plus the encoding enum otherwise.
    match scEncode codec s with
    | none => none
    | some (bs, none) => some (emit (1 :: (encodeUint32 bs.length ++ bs)) st)
    | some (bs, some e) =>
      some (emit (13 :: (encodeUint32 e ++ encodeUint32 bs.length ++ bs)) st)
  | _ + 1, .top (.bytes s), st =>
    -- visit_string on a py2 byte string: codecs.encode first coerces it
    -- through ASCII, so pure-ASCII byte strings encode like the
    -- corresponding text with no explicit encoding, anything else
    -- raises UnicodeDecodeError, which StringCodec.encode does not
    -- catch.
    if s.all (· < 128) then some (emit (1 :: (encodeUint32 s.length ++ s)) st) else none
  | _ + 1, .top (.blob s), st =>
    -- visit_blob; bytearray members are < 256 by construction.
    if s.all (· < 256) then some (emit (12 :: (encodeUint32 s.length ++ s)) st) else none
  | fuel + 1, .top (.arr vs), st =>
    enc reg heap codec fuel (.list vs) (emit (2 :: encodeUint32 vs.length) st)
  | fuel + 1, .top (.map es), st =>
    enc reg heap codec fuel (.kvs (pySortEntries es)) (emit (3 :: encodeUint32 es.length) st)
  | _ + 1, .top .null, st => some (emit [4] st)
  | _ + 1, .top (.bool b), st => some (emit [if b then 5 else 6] st)
  | fuel + 1, .top (.obj i), st =>
    match lookupIdx st.idx i with
    | some off =>
      -- Already indexed: emit a reference with relative offset
      -- object_offset - recorded - 1 (which _encode_uint32 asserts to
      -- be non-negative; it is -1 exactly for a header cycle, where
      -- the recorded offset is the -1 placeholder).
      let d : Int := (st.off : Int) - off - 1
      if 0 ≤ d then some (emit (8 :: encodeUint32 d.toNat) st) else none
    | none =>
      match resolveMeta reg heap (fuel + 1) i with
      | none => none
      | some (mi, _last) =>
        -- Note: faithful to codec.py lines 176-177, the header and
        -- payload are extracted from the ORIGINAL object `i`, not from
        -- the replacement fixpoint `_last`.
        let index := st.off
        let header := mi.getHeader heap i
        let fields := mi.getPayload heap i
        let st1 := emit (7 :: encodeUint32 fields.length)
          { st with off := st.off + 1, idx := (i, (-1 : Int)) :: st.idx }
        match enc reg heap codec fuel (.top header) st1 with
        | none => none
        | some st2 =>
          enc reg heap codec fuel (.kvs (pySortEntries fields))
            { st2 with idx := (i, (index : Int)) :: st2.idx }
  | _ + 1, .list [], st => some st
  | fuel + 1, .list (v :: vs), st =>
    match enc reg heap codec fuel (.top v) st with
    | none => none
    | some st1 => enc reg heap codec fuel (.list vs) st1
  | _ + 1, .kvs [], st => some st
  | fuel + 1, .kvs ((k, v) :: es), st =>
    match enc reg heap codec fuel (.top k) st with
    | none => none
    | some st1 =>
      match enc reg heap codec fuel (.top v) st1 with
      | none => none
      | some st2 => enc reg heap codec fuel (.kvs es) st2

/-- Fresh encoder state (`Encoder.encode` builds a new assembler and a
new `DataOutputStream` per call). -/
def encInit : EncSt := { bytes := [], idx := [], off := 0 }

/-- `Encoder.encode` with everything explicit: registry, heap, the
configured default string encoding, and the fuel. -/
def encodeValF (reg : Registry) (heap : List HeapObj) (codec : Nat) (fuel : Nat)
    (v : Value) : Option (List Nat) :=
  (enc reg heap codec fuel (.top v) encInit).map EncSt.bytes

/-- `Encoder.encode` of a freshly constructed `Encoder()` (default
string codec UTF-8, module registry). -/
def planktonEncode (heap : List HeapObj) (fuel : Nat) (v : Value) : Option (List Nat) :=
  encodeValF defaultRegistry heap 106 fuel v

/-! ## Decoder -/

/-- Result of a decoding step: `ok`, a raised exception (`err`:
IndexError on truncation, unknown tag, KeyError on a dangling
reference, TypeError from a missing default-object factory, …), or
exhaustion of the structural fuel (`fuelOut`, a model artifact that the
fuel `decFuel` passes can never reach, and which is kept distinct from
`err` so the two can never be confused). -/
inductive DRes (α : Type) where
  | ok (a : α)
  | err
  | fuelOut

def DRes.bind {α β : Type} : DRes α → (α → DRes β) → DRes β
  | .ok a, f => f a
  | .err, _ => .err
  | .fuelOut, _ => .fuelOut

@[simp] theorem DRes.ok_bind {α β : Type} (a : α) (f : α → DRes β) :
    (DRes.ok a).bind f = f a := rfl

@[simp] theorem DRes.err_bind {α β : Type} (f : α → DRes β) :
    (DRes.err : DRes α).bind f = .err := rfl

@[simp] theorem DRes.fuelOut_bind {α β : Type} (f : α → DRes β) :
    (DRes.fuelOut : DRes α).bind f = .fuelOut := rfl

/-- A decoded object instance: a `DefaultObject` with its `header` and
`payload` attributes (`payload` is Python `None` until `set_contents`
runs). -/
structure DecObj where
  hdr : Value
  payload : Value

/-- Decoder session state: the remaining input bytes, the
`object_index` slot table (`none` is the Python `None` placeholder a
slot holds between `grab_index` and instance creation; `object_offset`
equals the table's length), and the heap of decoded instances. -/
structure DecSt where
  input : List Nat
  slots : List (Option Nat)
  dheap : List DecObj

/-- The two constructor arguments of `DataInputStream` besides the
bytes: whether a default-object factory was supplied (`Decoder.decode`
passes `DefaultObject`; the container's block reads pass `None`) and
whether a string codec was supplied. -/
structure DecCfg where
  hasDefaultObject : Bool
  hasCodec : Bool

/-- `DataInputStream._get_byte`: IndexError past the end. -/
def dGetByte (st : DecSt) : DRes (Nat × DecSt) :=
  match st.input with
  | [] => .err
  | b :: rest => .ok (b, { st with input := rest })

/-- `DataInputStream._decode_uint32` on the decoder state. -/
def dReadUint32 (st : DecSt) : DRes (Nat × DecSt) :=
  match decodeUint32L st.input with
  | none => .err
  | some (n, rest) => .ok (n, { st with input := rest })

/-- The byte-collecting loops of `_decode_default_string`,
`_decode_string` and `_decode_blob`: read exactly `n` bytes. -/
def dReadBytes : Nat → DecSt → DRes (List Nat × DecSt)
  | 0, st => .ok ([], st)
  | n + 1, st =>
    match st.input with
    | [] => .err
    | b :: rest =>
      (dReadBytes n { st with input := rest }).bind fun br => .ok (b :: br.1, br.2)

/-- Python `==` restricted to hashable values (decode only compares
values as dict keys, the container as stream ids): numbers compare by
value (`True == 1`), a unicode string against a byte string coerces the
bytes through ASCII (false when they are not ASCII), objects compare by
identity. -/
def pyEqH (a b : Value) : Bool :=
  match numValH a, numValH b with
  | some x, some y => decide (x = y)
  | _, _ =>
    match a, b with
    | .str s, .str t => decide (s = t)
    | .bytes s, .bytes t => decide (s = t)
    | .str s, .bytes t => t.all (· < 128) && decide (s = t)
    | .bytes t, .str s => t.all (· < 128) && decide (s = t)
    | .null, .null => true
    | .obj i, .obj j => decide (i = j)
    | _, _ => false

/-- Python hashability of the values decode can produce: lists, dicts
and bytearrays are unhashable (using one as a dict key raises). -/
def hashableV : Value → Bool
  | .arr _ => false
  | .map _ => false
  | .blob _ => false
  | _ => true

/-- `result[k] = v` on the insertion-ordered entry-list model of a
Python dict: replace the value of an existing `==` key (keeping the
stored key object), else append. -/
def dictSet : List (Value × Value) → Value → Value → List (Value × Value)
  | [], k, v => [(k, v)]
  | (k0, v0) :: rest, k, v =>
    if pyEqH k0 k then (k0, v) :: rest else (k0, v0) :: dictSet rest k v

/-- Dict assignment, raising on unhashable keys. -/
def dictInsert (es : List (Value × Value)) (k v : Value) : Option (List (Value × Value)) :=
  if hashableV k then some (dictSet es k v) else none

/-- Pending work of the decoder: read one tagged value
(`DataInputStream.read_object`), the element loop of `_decode_array`,
or the pair loop of `_decode_map_contents`. -/
inductive Req where
  | top
  | arrLoop (n : Nat) (acc : List Value)
  | mapLoop (n : Nat) (acc : List (Value × Value))

/-- The decoder: `DataInputStream.read_object` and the `_decode_*`
readers it dispatches to, defunctionalized over `Req` with a structural
fuel (see `DRes`).  The `get_meta_info_by_header` lookup inside
`_decode_object` is always `None` for the module-level registry —
no registered class carries a default header — so decode always takes
the `default_object` branch. -/
def run (cfg : DecCfg) : Nat → Req → DecSt → DRes (Value × DecSt)
  | 0, _, _ => .fuelOut
  | fuel + 1, .top, st =>
    (dGetByte st).bind fun bt =>
      let tag := bt.1
      let st1 := bt.2
      if tag = 0 then
        (dReadUint32 st1).bind fun nt => .ok (.int (pyUnzigzag nt.1), nt.2)
      else if tag = 1 then
        -- _decode_default_string returns str(bytes): a py2 BYTE string;
        -- the configured string codec is not consulted.
        (dReadUint32 st1).bind fun nt =>
          (dReadBytes nt.1 nt.2).bind fun bs => .ok (.bytes bs.1, bs.2)
      else if tag = 13 then
        (dReadUint32 st1).bind fun et =>
          (dReadUint32 et.2).bind fun nt =>
            (dReadBytes nt.1 nt.2).bind fun bs =>
              if cfg.hasCodec then
                match pyDecodeEnc et.1 bs.1 with
                | some s => .ok (.str s, bs.2)
                | none => .err
              else .err   -- string_codec is None: AttributeError
      else if tag = 2 then
        (dReadUint32 st1).bind fun nt => run cfg fuel (.arrLoop nt.1 []) nt.2
      else if tag = 3 then
        (dReadUint32 st1).bind fun nt => run cfg fuel (.mapLoop nt.1 []) nt.2
      else if tag = 4 then .ok (.null, st1)
      else if tag = 5 then .ok (.bool true, st1)
      else if tag = 6 then .ok (.bool false, st1)
      else if tag = 7 then
        -- _decode_object: reserve the next slot, decode the header,
        -- create the instance and store it in the reserved slot, then
        -- decode the payload map and set the instance contents.
        (dReadUint32 st1).bind fun ft =>
          let fieldc := ft.1
          let index := ft.2.slots.length
          let st2 := { ft.2 with slots := ft.2.slots ++ [none] }
          (run cfg fuel .top st2).bind fun ht =>
            let header := ht.1
            let st3 := ht.2
            if cfg.hasDefaultObject then
              let hid := st3.dheap.length
              let st4 := { st3 with dheap := st3.dheap ++ [⟨header, .null⟩],
                                    slots := st3.slots.set index (some hid) }
              (run cfg fuel (.mapLoop fieldc []) st4).bind fun pt =>
                match pt.1 with
                | .map payload =>
                  .ok (.obj hid,
                    { pt.2 with dheap := pt.2.dheap.set hid ⟨header, .map payload⟩ })
                | _ => .err
            else .err   -- (self.default_object)(header) with None: TypeError
      else if tag = 8 then
        -- _decode_reference: index = object_offset - offset - 1;
        -- a key outside the slot table raises KeyError.
        (dReadUint32 st1).bind fun ot =>
          let idx : Int := (ot.2.slots.length : Int) - ot.1 - 1
          if 0 ≤ idx then
            match ot.2.slots.get? idx.toNat with
            | some (some hid) => .ok (.obj hid, ot.2)
            | some none => .ok (.null, ot.2)  -- slot still holds Python None
            | none => .err
          else .err
      else if tag = 12 then
        (dReadUint32 st1).bind fun nt =>
          (dReadBytes nt.1 nt.2).bind fun bs => .ok (.blob bs.1, bs.2)
      else .err   -- unknown tag: raise Exception(tag)
  | _ + 1, .arrLoop 0 acc, st => .ok (.arr acc, st)
  | fuel + 1, .arrLoop (n + 1) acc, st =>
    (run cfg fuel .top st).bind fun vt =>
      run cfg fuel (.arrLoop n (acc ++ [vt.1])) vt.2
  | _ + 1, .mapLoop 0 acc, st => .ok (.map acc, st)
  | fuel + 1, .mapLoop (n + 1) acc, st =>
    (run cfg fuel .top st).bind fun kt =>
      (run cfg fuel .top kt.2).bind fun vt =>
        match dictInsert acc kt.1 vt.1 with
        | some acc2 => run cfg fuel (.mapLoop n acc2) vt.2
        | none => .err

/-- Decoding fuel: each nested `read_object` consumes at least one
byte and `run` decrements the fuel at most twice between consumed
bytes, so `2·|input| + 2` always suffices (`run_no_fuelOut` below);
the Python code has no fuel at all. -/
def decFuel (bs : List Nat) : Nat := 2 * bs.length + 2

/-- Fresh decoder state over the given buffer. -/
def decInit (bs : List Nat) : DecSt := { input := bs, slots := [], dheap := [] }

/-- `Decoder().decode(data)`: default-object factory `DefaultObject`,
default string codec UTF-8. -/
def planktonDecode (bs : List Nat) : DRes (Value × DecSt) :=
  run ⟨true, true⟩ (decFuel bs) .top (decInit bs)

/-- `AbstractStream.receive_block` / `InputSocket._read_value`:
`DataInputStream(block, None, None).read_object()` — no default-object
factory, no string codec — keeping only the decoded value. -/
def blockDecode (bs : List Nat) : Option Value :=
  match run ⟨false, false⟩ (decFuel bs) .top (decInit bs) with
  | .ok (v, _) => some v
  | _ => none

/-! ## C1: round-trip -/

/-- C1 (code bug): the round-trip claim fails for strings.  With the
default UTF-8 string codec, `Encoder.encode(u"ﾃ")` emits the
default-encoding tag 1 with the UTF-8 bytes EF BE 83, but
`DataInputStream._decode_default_string` returns `str(bytes)` — the
raw byte string — without consulting the string codec, so
`Decoder.decode` yields the byte string `'\xef\xbe\x83'`, which is not
structurally equal to the unicode string `u"ﾃ"` (nor `==` to it in
Python 2, since the bytes are not ASCII). -/
theorem roundtrip_string_codebug :
    planktonEncode [] 10 (.str [0xFF83]) = some [1, 3, 0xEF, 0xBE, 0x83] ∧
    planktonDecode [1, 3, 0xEF, 0xBE, 0x83] =
      .ok (.bytes [0xEF, 0xBE, 0x83], ⟨[], [], []⟩) ∧
    Value.bytes [0xEF, 0xBE, 0x83] ≠ Value.str [0xFF83] ∧
    pyEqH (.bytes [0xEF, 0xBE, 0x83]) (.str [0xFF83]) = false :=
  ⟨rfl, rfl, fun h => Value.noConfusion h, rfl⟩

/-! ## C3: replacement fixpoint -/

/-- Meta info of the C3 scenario's class A: header and payload come
from the instance's stored fields as for every registered class here,
plus a replacer that sends every instance to heap object 1. -/
def replacementMetaA : MetaInfo where
  getHeader := defaultObjectMeta.getHeader
  getPayload := defaultObjectMeta.getPayload
  replacement := fun _ _ => 1

/-- Registry for C3: class 0 is A (with the replacer), every other
class behaves like `DefaultObject`. -/
def replacementReg : Registry :=
  fun c => if c = 0 then some replacementMetaA else some defaultObjectMeta

/-- Heap for C3: object 0 (class A, header 1) whose registered
replacement is object 1 (class B, header 2). -/
def replacementHeap : List HeapObj := [⟨0, .int 1, []⟩, ⟨1, .int 2, []⟩]

/-- C3 (code bug): the replacement loop does reach the fixpoint object
1 and its descriptor, but `visit_object` then calls
`meta_info.get_header(obj)` / `get_payload(obj)` on the ORIGINAL object
(codec.py lines 176-177), not on the fixpoint `last_obj`.  Encoding
object 0 therefore emits header `1` — the original's attribute — as
the bytes `[7, 0, 0, 2]`, whereas the header extracted from the final
replacement is `2`, whose record would be `[7, 0] ++ [0, 4]`. -/
theorem replacement_extraction_codebug :
    encodeValF replacementReg replacementHeap 106 10 (.obj 0) = some [7, 0, 0, 2] ∧
    resolveMeta replacementReg replacementHeap 10 0 = some (defaultObjectMeta, 1) ∧
    defaultObjectMeta.getHeader replacementHeap 1 = .int 2 ∧
    encodeValF replacementReg replacementHeap 106 10 (.int 2) = some [0, 4] ∧
    [7, 0, 0, 2] ≠ [7, 0] ++ [0, 4] :=
  ⟨rfl, rfl, rfl, rfl, by decide⟩

/-! ## Symbolic-execution helpers -/

theorem dReadUint32_encode (n : Nat) (rest : List Nat) (s : List (Option Nat))
    (d : List DecObj) : dReadUint32 ⟨encodeUint32 n ++ rest, s, d⟩ = .ok (n, ⟨rest, s, d⟩) := by
  rw [dReadUint32]
  simp only [decodeUint32L_encode]

theorem decodeUint32L_small (b : Nat) (hb : b < 128) (rest : List Nat) :
    decodeUint32L (b :: rest) = some (b, rest) := by
  have : encodeUint32 b = [b] := by
    rw [encodeUint32]
    match b with
    | 0 => rfl
    | v + 1 => rw [encodeUint32Go, if_neg (by omega)]
  have h := decodeUint32L_encode b rest
  rw [this] at h
  exact h

theorem dReadUint32_small (b : Nat) (hb : b < 128) (rest : List Nat)
    (s : List (Option Nat)) (d : List DecObj) :
    dReadUint32 ⟨b :: rest, s, d⟩ = .ok (b, ⟨rest, s, d⟩) := by
  rw [dReadUint32]
  simp only [decodeUint32L_small b hb]

theorem dReadBytes_exact (bs rest : List Nat) (s : List (Option Nat)) (d : List DecObj) :
    dReadBytes bs.length ⟨bs ++ rest, s, d⟩ = .ok (bs, ⟨rest, s, d⟩) := by
  induction bs with
  | nil => rfl
  | cons b bt ih =>
    rw [List.length_cons, List.cons_append, dReadBytes]
    simp only [ih, DRes.ok_bind]

theorem enc_int (reg : Registry) (heap : List HeapObj) (codec fuel : Nat) (st : EncSt)
    (n : Int) (h1 : -(2 ^ 31) ≤ n) (h2 : n < 2 ^ 31) :
    enc reg heap codec (fuel + 1) (.top (.int n)) st =
      some (emit (0 :: encodeUint32 (pyZigzag n).toNat) st) := by
  simp only [enc]
  rw [if_pos (pyZigzag_nonneg n h1 h2)]

/-! ## C4: object sharing -/

/-- One-object heap for C4: a single `DefaultObject` instance `a` with
header `n` and empty payload; the encoded structure is `[a, a]`. -/
def sharedHeap (n : Int) : List HeapObj := [⟨0, .int n, []⟩]

/-- The bytes C4 expects: array of 2, one tag-7 object record (field
count 0, header `n`), one tag-8 back-reference with offset 0. -/
def sharedBytes (n : Int) : List Nat :=
  [2, 2, 7, 0] ++ (0 :: encodeUint32 (pyZigzag n).toNat) ++ [8, 0]

/-- C4: encoding `[a, a]` (the same object instance in both slots)
emits exactly one tag-7 object record followed by one tag-8 reference,
and decoding that output yields an array whose two slots are the same
decoded instance — both `obj 0`, pointing at the single cell of the
decoded heap — not two copies. -/
theorem object_sharing_roundtrip (n : Int) (h1 : -(2 ^ 31) ≤ n) (h2 : n < 2 ^ 31) :
    planktonEncode (sharedHeap n) 10 (.arr [.obj 0, .obj 0]) = some (sharedBytes n) ∧
    planktonDecode (sharedBytes n) =
      .ok (.arr [.obj 0, .obj 0], ⟨[], [some 0], [⟨.int n, .map []⟩]⟩) := by
  have hz : 0 ≤ pyZigzag n := pyZigzag_nonneg n h1 h2
  constructor
  · simp [planktonEncode, encodeValF, enc, sharedHeap, sharedBytes, encInit, emit,
      lookupIdx, resolveMeta, defaultRegistry, defaultObjectMeta, pySortEntries, hz,
      encodeUint32, encodeUint32Go]
  · have main : ∀ f : Nat, run ⟨true, true⟩ (f + 6) .top (decInit (sharedBytes n)) =
        .ok (.arr [.obj 0, .obj 0], ⟨[], [some 0], [⟨.int n, .map []⟩]⟩) := by
      intro f
      simp [run, sharedBytes, decInit, dGetByte, dReadUint32_encode, dReadUint32_small,
        pyUnzigzag_pyZigzag n h1 h2, dictInsert, hashableV]
    have hf : decFuel (sharedBytes n) = (decFuel (sharedBytes n) - 6) + 6 := by
      have hlen : 4 ≤ (sharedBytes n).length := by
        simp only [sharedBytes, List.length_append, List.length_cons]
        omega
      unfold decFuel
      omega
    rw [planktonDecode, hf]
    exact main _

/-! ## C10: cycles through the payload -/

/-- Heap for C10: one object whose field `"x"` refers back to the
object itself (header `n`). -/
def cyclicHeap (n : Int) : List HeapObj := [⟨0, .int n, [(.str [120], .obj 0)]⟩]

/-- The bytes C10 expects: tag-7 record with field count 1, header
`n`, the field name `"x"`, and a tag-8 back-reference with offset 0 in
the field value. -/
def cyclicBytes (n : Int) : List Nat :=
  [7, 1] ++ (0 :: encodeUint32 (pyZigzag n).toNat) ++ [1, 1, 120, 8, 0]

/-- C10: a cycle running through an object's payload round-trips with
sharing preserved.  The encoder resolves the object's index slot right
after its header (so the self-referential field emits tag 8 with
relative offset 0), and the decoder stores the fresh instance in its
reserved slot before decoding the payload, so the decoded field holds
the very instance that contains it: the result is `obj 0` and the
decoded heap's single cell has payload `{"x": obj 0}`. -/
theorem payload_cycle_roundtrip (n : Int) (h1 : -(2 ^ 31) ≤ n) (h2 : n < 2 ^ 31) :
    planktonEncode (cyclicHeap n) 10 (.obj 0) = some (cyclicBytes n) ∧
    planktonDecode (cyclicBytes n) =
      .ok (.obj 0, ⟨[], [some 0], [⟨.int n, .map [(.bytes [120], .obj 0)]⟩]⟩) := by
  have hz : 0 ≤ pyZigzag n := pyZigzag_nonneg n h1 h2
  constructor
  · simp [planktonEncode, encodeValF, enc, cyclicHeap, cyclicBytes, encInit, emit,
      lookupIdx, resolveMeta, defaultRegistry, defaultObjectMeta, pySortEntries,
      insortEntry, hz, encodeUint32, encodeUint32Go, scEncode, pyEncodeEnc, utf8Encode,
      utf8EncodeChar]
  · have main : ∀ f : Nat, run ⟨true, true⟩ (f + 6) .top (decInit (cyclicBytes n)) =
        .ok (.obj 0, ⟨[], [some 0], [⟨.int n, .map [(.bytes [120], .obj 0)]⟩]⟩) := by
      intro f
      simp [run, cyclicBytes, decInit, dGetByte, dReadUint32_encode, dReadUint32_small,
        pyUnzigzag_pyZigzag n h1 h2, dictInsert, dictSet, hashableV, dReadBytes]
    have hf : decFuel (cyclicBytes n) = (decFuel (cyclicBytes n) - 6) + 6 := by
      have hlen : 4 ≤ (cyclicBytes n).length := by
        simp only [cyclicBytes, List.length_append, List.length_cons]
        omega
      unfold decFuel
      omega
    rw [planktonDecode, hf]
    exact main _

/-- Witness for C4 at header 5. -/
theorem object_sharing_roundtrip_witness :
    planktonEncode (sharedHeap 5) 10 (.arr [.obj 0, .obj 0]) = some (sharedBytes 5) ∧
    planktonDecode (sharedBytes 5) =
      .ok (.arr [.obj 0, .obj 0], ⟨[], [some 0], [⟨.int 5, .map []⟩]⟩) :=
  object_sharing_roundtrip 5 (by decide) (by decide)

/-- Witness for C10 at header 7. -/
theorem payload_cycle_roundtrip_witness :
    planktonEncode (cyclicHeap 7) 10 (.obj 0) = some (cyclicBytes 7) ∧
    planktonDecode (cyclicBytes 7) =
      .ok (.obj 0, ⟨[], [some 0], [⟨.int 7, .map [(.bytes [120], .obj 0)]⟩]⟩) :=
  payload_cycle_roundtrip 7 (by decide) (by decide)

/-! ## C8: fallback string encoding -/

theorem asciiEncode_none (s : List Nat) (h : ∃ c ∈ s, 128 ≤ c) : asciiEncode s = none := by
  rw [asciiEncode, if_neg]
  intro hall
  obtain ⟨c, hc, hge⟩ := h
  rw [List.all_eq_true] at hall
  have := hall c hc
  simp only [decide_eq_true_eq] at this
  omega

theorem dReadBytes_all (bs : List Nat) (s : List (Option Nat)) (d : List DecObj) :
    dReadBytes bs.length ⟨bs, s, d⟩ = .ok (bs, ⟨[], s, d⟩) := by
  have h := dReadBytes_exact bs [] s d
  rwa [List.append_nil] at h

/-- C8: under a US-ASCII default string codec
(`encoder.set_default_string_encoding("US-ASCII")`), a string
containing a character the default cannot represent (any code point ≥
128, e.g. U+FF83) is emitted with the explicit-encoding tag 13 and the
UTF-8 fallback enum 106 — not the default-encoding tag 1 — followed by
the UTF-8 bytes, and `Decoder.decode` on those bytes returns the
original string. -/
theorem fallback_string_encoding (s : List Nat) (hv : ∀ c ∈ s, c < 0x110000)
    (hnon : ∃ c ∈ s, 128 ≤ c) :
    ∃ bs : List Nat, utf8Encode s = some bs ∧
      (∀ fuel : Nat, encodeValF defaultRegistry [] 3 (fuel + 1) (.str s) =
        some (13 :: (encodeUint32 106 ++ encodeUint32 bs.length ++ bs))) ∧
      planktonDecode (13 :: (encodeUint32 106 ++ encodeUint32 bs.length ++ bs)) =
        .ok (.str s, ⟨[], [], []⟩) := by
  have henc : utf8Encode s = some (s.foldr (fun c acc => utf8EncodeChar c ++ acc) []) := by
    rw [utf8Encode, if_pos]
    rw [List.all_eq_true]
    intro c hc
    simpa using hv c hc
  refine ⟨_, henc, ?_, ?_⟩
  · intro fuel
    simp [encodeValF, enc, scEncode, pyEncodeEnc, asciiEncode_none s hnon, henc,
      encInit, emit]
  · have hdec : utf8Decode (s.foldr (fun c acc => utf8EncodeChar c ++ acc) []) = some s :=
      utf8Decode_utf8Encode s hv _ henc
    set bs := s.foldr (fun c acc => utf8EncodeChar c ++ acc) [] with hbs
    have main : ∀ f : Nat,
        run ⟨true, true⟩ (f + 1) .top
          (decInit (13 :: (encodeUint32 106 ++ encodeUint32 bs.length ++ bs))) =
          .ok (.str s, ⟨[], [], []⟩) := by
      intro f
      have h106 : encodeUint32 106 = [106] := rfl
      rw [h106]
      simp [run, decInit, dGetByte, dReadUint32_encode, dReadUint32_small,
        dReadBytes_all, pyDecodeEnc, hdec]
    have hf : decFuel (13 :: (encodeUint32 106 ++ encodeUint32 bs.length ++ bs)) =
        (decFuel (13 :: (encodeUint32 106 ++ encodeUint32 bs.length ++ bs)) - 1) + 1 := by
      unfold decFuel
      omega
    rw [planktonDecode, hf]
    exact main _

/-- Witness for C8 at the spec's example string `u"ﾃ"`. -/
theorem fallback_string_encoding_witness :
    ∃ bs : List Nat, utf8Encode [0xFF83] = some bs ∧
      (∀ fuel : Nat, encodeValF defaultRegistry [] 3 (fuel + 1) (.str [0xFF83]) =
        some (13 :: (encodeUint32 106 ++ encodeUint32 bs.length ++ bs))) ∧
      planktonDecode (13 :: (encodeUint32 106 ++ encodeUint32 bs.length ++ bs)) =
        .ok (.str [0xFF83], ⟨[], [], []⟩) :=
  fallback_string_encoding [0xFF83] (by decide) (by decide)

/-! ## C5: canonical map order -/

theorem pySortEntries_eq_of_perm (es1 es2 : List (Value × Value)) (hperm : es1.Perm es2)
    (hcls : (∀ e ∈ es1, ∃ n, e.1 = Value.int n) ∨ (∀ e ∈ es1, ∃ t, e.1 = Value.str t))
    (hnodup : es1.Pairwise (fun e f => e.1 ≠ f.1)) :
    pySortEntries es1 = pySortEntries es2 := by
  have hkey : ∀ e ∈ es1, ∀ f ∈ es1, e.1 = f.1 → e = f := by
    intro e he f hf hef
    by_contra hne
    have hsym : Symmetric (fun e f : Value × Value => e.1 ≠ f.1) :=
      fun _ _ h q => h q.symm
    exact (List.Pairwise.forall hsym hnodup he hf hne) hef
  have ha : ∀ e ∈ pySortEntries es1, ∀ f ∈ pySortEntries es1,
      pyLEb e.1 f.1 = true → pyLEb f.1 e.1 = true → e = f := by
    intro e he f hf h1 h2
    have he1 : e ∈ es1 := (pySortEntries_perm es1).mem_iff.mp he
    have hf1 : f ∈ es1 := (pySortEntries_perm es1).mem_iff.mp hf
    rcases hcls with hint | hstr
    · obtain ⟨a, hea⟩ := hint e he1
      obtain ⟨b, hfb⟩ := hint f hf1
      rw [hea, hfb] at h1 h2
      have heq := pyLEb_int_antisymm a b h1 h2
      exact hkey e he1 f hf1 (by rw [hea, hfb, heq])
    · obtain ⟨a, hea⟩ := hstr e he1
      obtain ⟨b, hfb⟩ := hstr f hf1
      rw [hea, hfb] at h1 h2
      have heq := pyLEb_str_antisymm a b h1 h2
      exact hkey e he1 f hf1 (by rw [hea, hfb, heq])
  exact sorted_perm_entries_eq _ _ (pySortEntries_sorted es1) (pySortEntries_sorted es2)
    ((pySortEntries_perm es1).trans (hperm.trans (pySortEntries_perm es2).symm)) ha

/-- C5: encoding two maps holding the same entries in different
insertion orders produces byte-identical output — at every fuel, hence
in particular for the completed Python run — and the entry sequence
the encoder emits is sorted by key under the total key order.  The
hypotheses are the claim's caller contract: the keys are mutually
comparable (all ints or all unicode strings) and distinct. -/
theorem canonical_map_order (heap : List HeapObj) (es1 es2 : List (Value × Value))
    (hperm : es1.Perm es2)
    (hcls : (∀ e ∈ es1, ∃ n, e.1 = Value.int n) ∨ (∀ e ∈ es1, ∃ t, e.1 = Value.str t))
    (hnodup : es1.Pairwise (fun e f => e.1 ≠ f.1)) :
    (∀ fuel : Nat, planktonEncode heap fuel (.map es1) = planktonEncode heap fuel (.map es2)) ∧
    (pySortEntries es1).Pairwise (fun e f => pyLEb e.1 f.1 = true) := by
  have hsort := pySortEntries_eq_of_perm es1 es2 hperm hcls hnodup
  have hlen := hperm.length_eq
  refine ⟨fun fuel => ?_, pySortEntries_sorted es1⟩
  match fuel with
  | 0 => rfl
  | fuel + 1 =>
    rw [planktonEncode, planktonEncode, encodeValF, encodeValF]
    simp only [enc]
    rw [hsort, hlen]

/-- Witness for C5 at the spec's example `{"b": 1, "a": 2}` versus
`{"a": 2, "b": 1}`. -/
theorem canonical_map_order_witness :
    (∀ fuel : Nat,
      planktonEncode [] fuel (.map [(.str [98], .int 1), (.str [97], .int 2)]) =
        planktonEncode [] fuel (.map [(.str [97], .int 2), (.str [98], .int 1)])) ∧
    (pySortEntries [(.str [98], .int 1), (.str [97], .int 2)]).Pairwise
      (fun e f => pyLEb e.1 f.1 = true) :=
  canonical_map_order [] [(.str [98], .int 1), (.str [97], .int 2)]
    [(.str [97], .int 2), (.str [98], .int 1)]
    (List.Perm.swap (Value.str [97], Value.int 2) (Value.str [98], Value.int 1) [])
    (Or.inr (by
      intro e he
      rcases List.mem_cons.mp he with rfl | he2
      · exact ⟨[98], rfl⟩
      · rcases List.mem_cons.mp he2 with rfl | he3
        · exact ⟨[97], rfl⟩
        · cases he3))
    (by simp)

/-! ## Stream container protocol (container.py) -/

/-- The 8-byte stream preamble `"pt\xf6n\0\0\0\0"`. -/
def preamble : List Nat := [112, 116, 0xF6, 110, 0, 0, 0, 0]

/-- Output socket state: the bytes written to the underlying file and
the cursor, which counts bytes written since the preamble
(`_write_header` writes directly to the file without advancing it). -/
structure OutSt where
  bytes : List Nat
  cursor : Nat

/-- `OutputSocket.__init__`: write the magic header. -/
def outInit : OutSt := ⟨preamble, 0⟩

/-- `OutputSocket._write_byte`. -/
def outWriteByte (b : Nat) (st : OutSt) : OutSt := ⟨st.bytes ++ [b], st.cursor + 1⟩

/-- `OutputSocket._write_blob`. -/
def outWriteBlob (bs : List Nat) (st : OutSt) : OutSt :=
  ⟨st.bytes ++ bs, st.cursor + bs.length⟩

/-- `OutputSocket._write_value`: `Encoder().encode(value)` as a
length-prefixed value block (heap and encoder fuel explicit). -/
def outWriteValue (heap : List HeapObj) (fuel : Nat) (v : Value) (st : OutSt) : Option OutSt :=
  match planktonEncode heap fuel v with
  | none => none
  | some data => some (outWriteBlob data (outWriteBlob (encodeUint32 data.length) st))

/-- `OutputSocket._write_padding`: `while cursor % 8 != 0: write 0` —
the loop writes exactly `(8 - cursor % 8) % 8` zero bytes. -/
def outWritePadding (st : OutSt) : OutSt :=
  ⟨st.bytes ++ List.replicate ((8 - st.cursor % 8) % 8) 0,
   st.cursor + (8 - st.cursor % 8) % 8⟩

/-- `OutputSocket.send_value(value, stream_id)`: opcode 2, stream-id
block, payload block, padding. -/
def sendValueTo (heap : List HeapObj) (fuel : Nat) (sid : Value) (st : OutSt) (v : Value) :
    Option OutSt :=
  match outWriteValue heap fuel sid (outWriteByte 2 st) with
  | none => none
  | some st1 =>
    match outWriteValue heap fuel v st1 with
    | none => none
    | some st2 => some (outWritePadding st2)

/-- `OutputSocket.send_value(value)`: the root stream (`stream_id`
defaults to `None`). -/
def sendValue (heap : List HeapObj) (fuel : Nat) (st : OutSt) (v : Value) : Option OutSt :=
  sendValueTo heap fuel .null st v

/-- A sequence of `send_value` calls on the root stream. -/
def sendAll (heap : List HeapObj) (fuel : Nat) : OutSt → List Value → Option OutSt
  | st, [] => some st
  | st, v :: vs =>
    match sendValue heap fuel st v with
    | none => none
    | some st1 => sendAll heap fuel st1 vs

/-- Input socket state: the unread bytes of the file, the byte cursor
(which counts the preamble, unlike the output side's), the stream table
(each registered stream a `DefaultStream`, modelled as its queue of
received values in arrival order), and the stored default encoding,
which `InputSocket` assigns but never reads. -/
structure InSt where
  file : List Nat
  cursor : Nat
  streams : List (Value × List Value)
  defaultEnc : Option Value

/-- `InputSocket._get_byte`: one byte, or `None` at end of input (the
cursor advances only on success). -/
def inGetByte (st : InSt) : Option (Nat × InSt) :=
  match st.file with
  | [] => none
  | b :: rest => some (b, { st with file := rest, cursor := st.cursor + 1 })

/-- `InputSocket._read_blob`: `file.read(count)` may return fewer bytes
at end of input; the cursor advances by `count` regardless. -/
def inReadBlob (count : Nat) (st : InSt) : List Nat × InSt :=
  (st.file.take count, { st with file := st.file.drop count, cursor := st.cursor + count })

/-- `InputSocket._read_block`: varint size (via
`DataInputStream.decode_uint32_from` reading through `_get_byte`,
which advances the cursor per byte; a `None` mid-varint raises) then
the raw block bytes. -/
def inReadBlock (st : InSt) : Option (List Nat × InSt) :=
  match decodeUint32L st.file with
  | none => none
  | some (size, rest) =>
    some (inReadBlob size
      { st with file := rest, cursor := st.cursor + (st.file.length - rest.length) })

/-- `InputSocket._read_value`: read a block and decode it with
`DataInputStream(block, None, None)`. -/
def inReadValue (st : InSt) : Option (Value × InSt) :=
  match inReadBlock st with
  | none => none
  | some (block, st1) =>
    match blockDecode block with
    | none => none
    | some v => some (v, st1)

/-- `InputSocket._read_padding`: `while cursor % 8 != 0: _get_byte()`.
If the padding bytes are missing, `_get_byte` keeps returning `None`
without advancing the cursor and the Python loop never terminates;
that divergence is modelled as `none`. -/
def inReadPadding (st : InSt) : Option InSt :=
  if (8 - st.cursor % 8) % 8 ≤ st.file.length then
    some { st with file := st.file.drop ((8 - st.cursor % 8) % 8),
                   cursor := st.cursor + (8 - st.cursor % 8) % 8 }
  else none

/-- `self.streams.get(stream_id, None)` (keys are hashable — the root
key is `None`; the caller checks the probe key's hashability). -/
def lookupStream : List (Value × List Value) → Value → Option (List Value)
  | [], _ => none
  | (k, q) :: rest, sid => if pyEqH k sid then some q else lookupStream rest sid

/-- Replace a stream's queue. -/
def setStream : List (Value × List Value) → Value → List Value → List (Value × List Value)
  | [], _, _ => []
  | (k, q) :: rest, sid, q2 =>
    if pyEqH k sid then (k, q2) :: rest else (k, q) :: setStream rest sid q2

/-- `InputSocket.init`: read 8 bytes (cursor += 8), validate the
preamble, and register the root stream (a fresh `DefaultStream`) under
key `None`; an invalid preamble fails initialization. -/
def inSocketInit (bs : List Nat) : Option InSt :=
  if bs.take 8 = preamble then
    some { file := bs.drop 8, cursor := 8, streams := [(Value.null, [])], defaultEnc := none }
  else none

/-- `InputSocket.process_next_instruction`.  Outer `none` models an
exception escaping the call (malformed block, unhashable stream id,
missing padding); `some (false, ·)` is the Python `return False`. -/
def processNext (st : InSt) : Option (Bool × InSt) :=
  match inGetByte st with
  | none => some (false, st)   -- opcode None: neither 1 nor 2
  | some (op, st1) =>
    if op = 1 then
      match inReadValue st1 with
      | none => none
      | some (v, st2) =>
        match inReadPadding { st2 with defaultEnc := some v } with
        | none => none
        | some st3 => some (true, st3)
    else if op = 2 then
      match inReadValue st1 with
      | none => none
      | some (sid, st2) =>
        match inReadBlock st2 with
        | none => none
        | some (block, st3) =>
          match inReadPadding st3 with
          | none => none
          | some st4 =>
            if hashableV sid then
              match lookupStream st4.streams sid with
              | none => some (true, st4)   -- unregistered: drop the block
              | some q =>
                match blockDecode block with
                | none => none
                | some v =>
                  some (true, { st4 with streams := setStream st4.streams sid (q ++ [v]) })
            else none
    else some (false, st1)

/-- Poll `process_next_instruction` a given number of times, requiring
each call to process an instruction. -/
def runInput : Nat → InSt → Option InSt
  | 0, st => some st
  | k + 1, st =>
    match processNext st with
    | some (true, st1) => runInput k st1
    | _ => none

/-! ### Socket execution lemmas -/

theorem inReadBlock_exact (bs rest : List Nat) (c : Nat) (strs : List (Value × List Value))
    (de : Option Value) :
    inReadBlock ⟨encodeUint32 bs.length ++ (bs ++ rest), c, strs, de⟩ =
      some (bs, ⟨rest, c + (encodeUint32 bs.length).length + bs.length, strs, de⟩) := by
  rw [inReadBlock]
  simp only [decodeUint32L_encode]
  rw [inReadBlob]
  simp only [List.take_left, List.drop_left, List.length_append, Option.some.injEq,
    Prod.mk.injEq, InSt.mk.injEq, true_and, and_true]
  omega

theorem inReadValue_exact (bs rest : List Nat) (c : Nat) (strs : List (Value × List Value))
    (de : Option Value) (v : Value) (hdec : blockDecode bs = some v) :
    inReadValue ⟨encodeUint32 bs.length ++ (bs ++ rest), c, strs, de⟩ =
      some (v, ⟨rest, c + (encodeUint32 bs.length).length + bs.length, strs, de⟩) := by
  rw [inReadValue, inReadBlock_exact]
  simp only [hdec]

theorem inReadPadding_exact (c : Nat) (rest : List Nat) (strs : List (Value × List Value))
    (de : Option Value) :
    inReadPadding ⟨List.replicate ((8 - c % 8) % 8) 0 ++ rest, c, strs, de⟩ =
      some ⟨rest, c + (8 - c % 8) % 8, strs, de⟩ := by
  have hdrop : (List.replicate ((8 - c % 8) % 8) (0 : Nat) ++ rest).drop ((8 - c % 8) % 8) =
      rest := by
    have h := List.drop_left (List.replicate ((8 - c % 8) % 8) (0 : Nat)) rest
    rwa [List.length_replicate] at h
  rw [inReadPadding]
  rw [if_pos (by simp only [List.length_append, List.length_replicate]; omega)]
  simp only [hdrop]

theorem sendValueTo_eq (heap : List HeapObj) (fuel : Nat) (sid v : Value) (c : Nat)
    (sidBs vBs : List Nat)
    (hsid : planktonEncode heap fuel sid = some sidBs)
    (hv : planktonEncode heap fuel v = some vBs) :
    sendValueTo heap fuel sid ⟨[], c⟩ v =
      some ⟨2 :: (encodeUint32 sidBs.length ++ (sidBs ++ (encodeUint32 vBs.length ++ (vBs ++
          List.replicate ((8 - (c + 1 + (encodeUint32 sidBs.length).length + sidBs.length +
            (encodeUint32 vBs.length).length + vBs.length) % 8) % 8) 0)))),
        c + 1 + (encodeUint32 sidBs.length).length + sidBs.length +
          (encodeUint32 vBs.length).length + vBs.length +
          (8 - (c + 1 + (encodeUint32 sidBs.length).length + sidBs.length +
            (encodeUint32 vBs.length).length + vBs.length) % 8) % 8⟩ := by
  simp only [sendValueTo, outWriteValue, outWriteByte, hsid, hv]
  simp only [outWriteBlob, outWritePadding, List.nil_append, List.append_assoc,
    List.cons_append]

theorem processNext_send (heap : List HeapObj) (fuel : Nat) (st : InSt) (sid v : Value)
    (sidBs vBs : List Nat) (out : OutSt) (rest : List Nat) (sidv : Value)
    (hsid : planktonEncode heap fuel sid = some sidBs)
    (hv : planktonEncode heap fuel v = some vBs)
    (hdec : blockDecode sidBs = some sidv)
    (hhash : hashableV sidv = true)
    (hout : sendValueTo heap fuel sid ⟨[], st.cursor⟩ v = some out)
    (hfile : st.file = out.bytes ++ rest) :
    processNext st =
      match lookupStream st.streams sidv with
      | none => some (true, ⟨rest, out.cursor, st.streams, st.defaultEnc⟩)
      | some q =>
        match blockDecode vBs with
        | none => none
        | some w =>
          some (true, ⟨rest, out.cursor, setStream st.streams sidv (q ++ [w]),
            st.defaultEnc⟩) := by
  obtain ⟨file, c, streams, de⟩ := st
  rw [sendValueTo_eq heap fuel sid v c sidBs vBs hsid hv] at hout
  obtain rfl := (Option.some.inj hout).symm
  simp only at hfile
  subst hfile
  rw [processNext]
  simp only [List.cons_append, List.append_assoc, inGetByte]
  rw [if_neg (by decide : ¬ (2 : Nat) = 1)]
  simp only [if_true]
  rw [inReadValue_exact _ _ _ _ _ _ hdec]
  simp only []
  rw [inReadBlock_exact]
  simp only []
  rw [inReadPadding_exact]
  simp only [hhash, if_true]

/-! ## C9: process_next_instruction control flow -/

/-- C9: `process_next_instruction` (a) returns False at end of input
(the opcode read yields `None`), (b) returns False on any opcode other
than 1 and 2, consuming only the opcode byte, and (c) for a complete
SEND_VALUE instruction (as emitted by `OutputSocket.send_value` from a
matching alignment cursor) whose decoded stream id has no registered
handler, consumes the whole instruction including its padding, delivers
nothing to any stream (the table is unchanged), and returns True. -/
theorem process_next_instruction_control (st : InSt) :
    (st.file = [] → processNext st = some (false, st)) ∧
    (∀ op rest, st.file = op :: rest → op ≠ 1 → op ≠ 2 →
      processNext st = some (false, { st with file := rest, cursor := st.cursor + 1 })) ∧
    (∀ heap fuel sid v sidBs vBs out rest sidv,
      planktonEncode heap fuel sid = some sidBs →
      planktonEncode heap fuel v = some vBs →
      blockDecode sidBs = some sidv →
      hashableV sidv = true →
      lookupStream st.streams sidv = none →
      sendValueTo heap fuel sid ⟨[], st.cursor⟩ v = some out →
      st.file = out.bytes ++ rest →
      processNext st = some (true, ⟨rest, out.cursor, st.streams, st.defaultEnc⟩)) := by
  refine ⟨?_, ?_, ?_⟩
  · intro h
    rw [processNext, inGetByte, h]
  · intro op rest hfile hop1 hop2
    rw [processNext, inGetByte, hfile]
    simp only []
    rw [if_neg (by simpa using hop1), if_neg (by simpa using hop2)]
  · intro heap fuel sid v sidBs vBs out rest sidv hsid hv hdec hhash hlook hout hfile
    rw [processNext_send heap fuel st sid v sidBs vBs out rest sidv hsid hv hdec hhash
      hout hfile, hlook]

/-- Witness for C9: end of input; opcode 99; a complete SEND_VALUE of
value 1 to the unregistered stream id 7, against a socket whose table
holds only the root stream. -/
theorem process_next_instruction_control_witness :
    processNext ⟨[], 5, [], none⟩ = some (false, ⟨[], 5, [], none⟩) ∧
    processNext ⟨[99, 1], 5, [], none⟩ = some (false, ⟨[1], 6, [], none⟩) ∧
    processNext ⟨[2, 2, 0, 14, 2, 0, 2, 0], 8, [(Value.null, [])], none⟩ =
      some (true, ⟨[], 16, [(Value.null, [])], none⟩) :=
  ⟨(process_next_instruction_control _).1 rfl,
   (process_next_instruction_control _).2.1 99 [1] rfl (by decide) (by decide),
   (process_next_instruction_control _).2.2 [] 10 (.int 7) (.int 1) [0, 14] [0, 2]
     ⟨[2, 2, 0, 14, 2, 0, 2, 0], 16⟩ [] (.int 7) rfl rfl rfl rfl rfl rfl rfl⟩

/-! ## C7: stream framing -/

/-- Variant of `processNext_send` where the instruction was emitted
from any alignment-compatible output cursor (`c0 ≡ st.cursor mod 8`);
the resulting input cursor `c'` is a multiple of 8. -/
theorem processNext_send_core (heap : List HeapObj) (fuel : Nat) (st : InSt) (sid v : Value)
    (sidBs vBs : List Nat) (out : OutSt) (rest : List Nat) (sidv : Value) (c0 : Nat)
    (hsid : planktonEncode heap fuel sid = some sidBs)
    (hv : planktonEncode heap fuel v = some vBs)
    (hdec : blockDecode sidBs = some sidv)
    (hhash : hashableV sidv = true)
    (hmod : c0 % 8 = st.cursor % 8)
    (hout : sendValueTo heap fuel sid ⟨[], c0⟩ v = some out)
    (hfile : st.file = out.bytes ++ rest) :
    ∃ c', c' % 8 = 0 ∧
      processNext st =
        match lookupStream st.streams sidv with
        | none => some (true, ⟨rest, c', st.streams, st.defaultEnc⟩)
        | some q =>
          match blockDecode vBs with
          | none => none
          | some w =>
            some (true, ⟨rest, c', setStream st.streams sidv (q ++ [w]),
              st.defaultEnc⟩) := by
  obtain ⟨file, c, streams, de⟩ := st
  rw [sendValueTo_eq heap fuel sid v c0 sidBs vBs hsid hv] at hout
  obtain rfl := (Option.some.inj hout).symm
  simp only at hfile hmod
  subst hfile
  refine ⟨c + 1 + (encodeUint32 sidBs.length).length + sidBs.length +
    (encodeUint32 vBs.length).length + vBs.length +
    (8 - (c + 1 + (encodeUint32 sidBs.length).length + sidBs.length +
      (encodeUint32 vBs.length).length + vBs.length) % 8) % 8, by omega, ?_⟩
  rw [processNext]
  simp only [List.cons_append, List.append_assoc, inGetByte]
  rw [if_neg (by decide : ¬ (2 : Nat) = 1)]
  simp only [if_true]
  rw [inReadValue_exact _ _ _ _ _ _ hdec]
  simp only []
  rw [inReadBlock_exact]
  simp only []
  rw [show (8 - (c0 + 1 + (encodeUint32 sidBs.length).length + sidBs.length +
      (encodeUint32 vBs.length).length + vBs.length) % 8) % 8 =
    (8 - (c + 1 + (encodeUint32 sidBs.length).length + sidBs.length +
      (encodeUint32 vBs.length).length + vBs.length) % 8) % 8 from by omega]
  rw [inReadPadding_exact]
  simp only [hhash, if_true]

theorem sendValueTo_shift (heap : List HeapObj) (fuel : Nat) (sid v : Value) (bs0 : List Nat)
    (c : Nat) :
    sendValueTo heap fuel sid ⟨bs0, c⟩ v =
      (sendValueTo heap fuel sid ⟨[], c⟩ v).map fun o => ⟨bs0 ++ o.bytes, o.cursor⟩ := by
  simp only [sendValueTo, outWriteValue, outWriteByte, outWriteBlob, outWritePadding]
  cases planktonEncode heap fuel sid with
  | none => rfl
  | some d1 =>
    simp only []
    cases planktonEncode heap fuel v with
    | none => rfl
    | some d2 =>
      simp only [Option.map_some', List.nil_append, List.append_assoc]

theorem sendAll_shift (heap : List HeapObj) (fuel : Nat) (vs : List Value) :
    ∀ (bs0 : List Nat) (c : Nat),
      sendAll heap fuel ⟨bs0, c⟩ vs =
        (sendAll heap fuel ⟨[], c⟩ vs).map fun o => ⟨bs0 ++ o.bytes, o.cursor⟩ := by
  induction vs with
  | nil =>
    intro bs0 c
    simp [sendAll]
  | cons v vs ih =>
    intro bs0 c
    rw [sendAll, sendAll, sendValue, sendValue, sendValueTo_shift]
    cases sendValueTo heap fuel .null ⟨[], c⟩ v with
    | none => rfl
    | some o1 =>
      simp only [Option.map_some']
      rw [ih (bs0 ++ o1.bytes) o1.cursor, ih o1.bytes o1.cursor]
      cases sendAll heap fuel ⟨[], o1.cursor⟩ vs with
      | none => rfl
      | some o2 => simp [List.append_assoc]

theorem sendValueTo_cursor_mod (heap : List HeapObj) (fuel : Nat) (sid v : Value)
    (st : OutSt) (out : OutSt) (h : sendValueTo heap fuel sid st v = some out) :
    out.cursor % 8 = 0 := by
  simp only [sendValueTo, outWriteValue, outWriteByte, outWriteBlob, outWritePadding] at h
  cases hsid : planktonEncode heap fuel sid with
  | none => rw [hsid] at h; simp at h
  | some d1 =>
    rw [hsid] at h
    simp only [] at h
    cases hv2 : planktonEncode heap fuel v with
    | none => rw [hv2] at h; simp at h
    | some d2 =>
      rw [hv2] at h
      simp only [Option.some.injEq] at h
      rw [← h]
      simp only []
      omega

theorem sendValueTo_diff (heap : List HeapObj) (fuel : Nat) (sid v : Value)
    (st : OutSt) (out : OutSt) (h : sendValueTo heap fuel sid st v = some out) :
    out.bytes.length + st.cursor = st.bytes.length + out.cursor := by
  simp only [sendValueTo, outWriteValue, outWriteByte, outWriteBlob, outWritePadding] at h
  cases hsid : planktonEncode heap fuel sid with
  | none => rw [hsid] at h; simp at h
  | some d1 =>
    rw [hsid] at h
    simp only [] at h
    cases hv2 : planktonEncode heap fuel v with
    | none => rw [hv2] at h; simp at h
    | some d2 =>
      rw [hv2] at h
      simp only [Option.some.injEq] at h
      rw [← h]
      simp only [List.length_append, List.length_replicate, List.length_cons,
        List.length_nil]
      omega

theorem sendAll_cursor_mod (heap : List HeapObj) (fuel : Nat) (vs : List Value) :
    ∀ (st : OutSt) (out : OutSt), st.cursor % 8 = 0 →
      sendAll heap fuel st vs = some out → out.cursor % 8 = 0 := by
  induction vs with
  | nil =>
    intro st out h hs
    obtain rfl := Option.some.inj hs
    exact h
  | cons v vs ih =>
    intro st out h hs
    rw [sendAll] at hs
    cases h1 : sendValue heap fuel st v with
    | none => rw [h1] at hs; cases hs
    | some o1 =>
      rw [h1] at hs
      exact ih o1 out (sendValueTo_cursor_mod heap fuel _ v st o1 h1) hs

theorem sendAll_diff (heap : List HeapObj) (fuel : Nat) (vs : List Value) :
    ∀ (st : OutSt) (out : OutSt), sendAll heap fuel st vs = some out →
      out.bytes.length + st.cursor = st.bytes.length + out.cursor := by
  induction vs with
  | nil =>
    intro st out hs
    obtain rfl := Option.some.inj hs
    rfl
  | cons v vs ih =>
    intro st out hs
    rw [sendAll] at hs
    cases h1 : sendValue heap fuel st v with
    | none => rw [h1] at hs; cases hs
    | some o1 =>
      rw [h1] at hs
      have d1 := sendValueTo_diff heap fuel _ v st o1 h1
      have d2 := ih o1 out hs
      omega

theorem planktonEncode_null (heap : List HeapObj) (fuel : Nat) (nb : List Nat)
    (h : planktonEncode heap fuel .null = some nb) : nb = [4] := by
  match fuel with
  | 0 => exact absurd h (by simp [planktonEncode, encodeValF, enc])
  | f + 1 =>
    rw [planktonEncode, encodeValF] at h
    simp only [enc, emit, encInit, Option.map_some', Option.some.injEq] at h
    exact h.symm

/-- A successful `send_value` encoded both the stream id and the
payload value. -/
theorem sendValueTo_encOk (heap : List HeapObj) (fuel : Nat) (sid v : Value)
    (st : OutSt) (out : OutSt) (h : sendValueTo heap fuel sid st v = some out) :
    ∃ sb vb, planktonEncode heap fuel sid = some sb ∧ planktonEncode heap fuel v = some vb := by
  simp only [sendValueTo, outWriteValue, outWriteByte, outWriteBlob, outWritePadding] at h
  cases hsid : planktonEncode heap fuel sid with
  | none => rw [hsid] at h; simp at h
  | some d1 =>
    rw [hsid] at h
    simp only [] at h
    cases hv2 : planktonEncode heap fuel v with
    | none => rw [hv2] at h; simp at h
    | some d2 => exact ⟨d1, d2, rfl, rfl⟩

/-- A successful `sendAll` on the root stream, emitted from an
8-aligned output cursor, is consumed instruction for instruction by
`process_next_instruction` from any 8-aligned input cursor; each sent
value is appended, in order, to the root stream's queue, and the final
input cursor is again 8-aligned. -/
theorem runInput_sendAll (heap : List HeapObj) (fuel : Nat) (vs : List Value) :
    ∀ (c0 cin : Nat) (q0 : List Value) (de : Option Value) (out : OutSt) (rest : List Nat),
      c0 % 8 = 0 → cin % 8 = 0 →
      sendAll heap fuel ⟨[], c0⟩ vs = some out →
      (∀ v ∈ vs, ∀ bs, planktonEncode heap fuel v = some bs → blockDecode bs = some v) →
      ∃ cend, cend % 8 = 0 ∧
        runInput vs.length ⟨out.bytes ++ rest, cin, [(Value.null, q0)], de⟩ =
          some ⟨rest, cend, [(Value.null, q0 ++ vs)], de⟩ := by
  induction vs with
  | nil =>
    intro c0 cin q0 de out rest h0 h1 hs _
    obtain rfl := Option.some.inj hs
    exact ⟨cin, h1, by simp [runInput]⟩
  | cons v vs ih =>
    intro c0 cin q0 de out rest h0 h1 hs hrt
    rw [sendAll, sendValue] at hs
    cases h2 : sendValueTo heap fuel .null ⟨[], c0⟩ v with
    | none => rw [h2] at hs; cases hs
    | some o1 =>
      rw [h2] at hs
      simp only [] at hs
      obtain ⟨bo1, co1⟩ := o1
      rw [sendAll_shift heap fuel vs bo1 co1] at hs
      cases h3 : sendAll heap fuel ⟨[], co1⟩ vs with
      | none => rw [h3] at hs; cases hs
      | some o2 =>
        rw [h3] at hs
        simp only [Option.map_some', Option.some.injEq] at hs
        obtain rfl := hs.symm
        have hco1 : co1 % 8 = 0 :=
          sendValueTo_cursor_mod heap fuel .null v ⟨[], c0⟩ ⟨bo1, co1⟩ h2
        obtain ⟨sb, vb, hsb, hvb⟩ :=
          sendValueTo_encOk heap fuel .null v ⟨[], c0⟩ ⟨bo1, co1⟩ h2
        obtain rfl : sb = [4] := planktonEncode_null heap fuel sb hsb
        have hrtv : blockDecode vb = some v := hrt v (List.mem_cons_self v vs) vb hvb
        obtain ⟨c', hc', hpn⟩ := processNext_send_core heap fuel
          ⟨bo1 ++ (o2.bytes ++ rest), cin, [(Value.null, q0)], de⟩ .null v
          [4] vb ⟨bo1, co1⟩ (o2.bytes ++ rest) Value.null c0 hsb hvb rfl rfl
          (by simp only []; omega) h2 rfl
        simp only [] at hpn
        rw [show lookupStream ([(Value.null, q0)] : List (Value × List Value)) Value.null
            = some q0 from rfl] at hpn
        simp only [] at hpn
        rw [hrtv] at hpn
        simp only [] at hpn
        rw [show setStream ([(Value.null, q0)] : List (Value × List Value)) Value.null
            (q0 ++ [v]) = [(Value.null, q0 ++ [v])] from rfl] at hpn
        obtain ⟨cend, hcend, hrun⟩ := ih co1 c' (q0 ++ [v]) de o2 rest hco1 hc' h3
          (fun w hw bs hbs => hrt w (List.mem_cons_of_mem v hw) bs hbs)
        refine ⟨cend, hcend, ?_⟩
        rw [List.append_assoc, List.length_cons]
        simp only [runInput]
        rw [hpn]
        simp only []
        rw [hrun]
        simp [List.append_assoc]

/-! The C7 theorem itself, and its concrete instance below at the
spec's own example: send `[1, 2, 3]` then `{"a": 3}` (native Python 2
literals, so the dict key is the byte string `"a"`). -/

/-- C7: writing a sequence of values to the root stream through an
`OutputSocket` and reading the result back through an `InputSocket`
(init, then one `process_next_instruction` per value) delivers exactly
those values, in order, to the root stream handler (whose received
queue ends up being exactly the sent list); after the instructions a
further poll returns `False` and changes nothing.  Moreover at every
instruction boundary (after any prefix of the sends) the bytes emitted
past the 8-byte preamble are a multiple of 8: the cursor is 8-aligned
and the file length is the preamble's 8 bytes plus the cursor.  The
hypothesis `hrt` is the per-value block round trip, proved separately
(in general form) for the value shapes of C2/C4/C5/C8/C10; it fails
for unicode-string-bearing values exactly because of the C1 decode
bug. -/
theorem stream_framing (heap : List HeapObj) (fuel : Nat) (vs : List Value) (outF : OutSt)
    (hsend : sendAll heap fuel outInit vs = some outF)
    (hrt : ∀ v ∈ vs, ∀ bs, planktonEncode heap fuel v = some bs → blockDecode bs = some v) :
    (∀ (k : Nat) (out' : OutSt), sendAll heap fuel outInit (vs.take k) = some out' →
        out'.cursor % 8 = 0 ∧ out'.bytes.length = 8 + out'.cursor) ∧
    ∃ stI cend, inSocketInit outF.bytes = some stI ∧ cend % 8 = 0 ∧
      runInput vs.length stI = some ⟨[], cend, [(Value.null, vs)], none⟩ ∧
      processNext ⟨[], cend, [(Value.null, vs)], none⟩ =
        some (false, ⟨[], cend, [(Value.null, vs)], none⟩) := by
  constructor
  · intro k out' h
    refine ⟨sendAll_cursor_mod heap fuel (vs.take k) outInit out' (by rfl) h, ?_⟩
    have hd := sendAll_diff heap fuel (vs.take k) outInit out' h
    simp only [outInit, preamble, List.length_cons, List.length_nil] at hd
    omega
  · rw [show outInit = (⟨preamble, 0⟩ : OutSt) from rfl,
      sendAll_shift heap fuel vs preamble 0] at hsend
    cases h3 : sendAll heap fuel ⟨[], 0⟩ vs with
    | none => rw [h3] at hsend; cases hsend
    | some o2 =>
      rw [h3] at hsend
      simp only [Option.map_some', Option.some.injEq] at hsend
      obtain rfl := hsend.symm
      have h8 : preamble.length = 8 := rfl
      have htake : (preamble ++ o2.bytes).take 8 = preamble := by
        rw [← h8]; exact List.take_left preamble o2.bytes
      have hdrop : (preamble ++ o2.bytes).drop 8 = o2.bytes := by
        rw [← h8]; exact List.drop_left preamble o2.bytes
      have hinit : inSocketInit (preamble ++ o2.bytes) =
          some ⟨o2.bytes, 8, [(Value.null, [])], none⟩ := by
        rw [inSocketInit, if_pos htake, hdrop]
      obtain ⟨cend, hcend, hrun⟩ := runInput_sendAll heap fuel vs 0 8 [] none o2 []
        (by omega) (by omega) h3 hrt
      simp only [List.append_nil, List.nil_append] at hrun
      exact ⟨⟨o2.bytes, 8, [(Value.null, [])], none⟩, cend, hinit, hcend, hrun, rfl⟩

/-- The spec's framing example: `[1, 2, 3]` then `{"a": 3}` sent on
the root stream (Python 2 literals: the dict key is a byte string). -/
def frameVs : List Value :=
  [.arr [.int 1, .int 2, .int 3], .map [(.bytes [97], .int 3)]]

/-- The output socket after sending `frameVs`: preamble, then two
16-byte SEND_VALUE instructions (opcode 2, stream-id block `[1, 4]`,
length-prefixed value block, zero padding to the next 8-boundary). -/
def frameOut : OutSt :=
  ⟨[112, 116, 246, 110, 0, 0, 0, 0,
    2, 1, 4, 8, 2, 3, 0, 2, 0, 4, 0, 6, 0, 0, 0, 0,
    2, 1, 4, 7, 3, 1, 1, 1, 97, 0, 6, 0, 0, 0, 0, 0], 32⟩

/-- Witness for C7: the spec's example `[1, 2, 3]` then `{"a": 3}`,
with both round-trip side conditions evaluated. -/
theorem stream_framing_witness :
    (∀ (k : Nat) (out' : OutSt), sendAll [] 20 outInit (frameVs.take k) = some out' →
        out'.cursor % 8 = 0 ∧ out'.bytes.length = 8 + out'.cursor) ∧
    ∃ stI cend, inSocketInit frameOut.bytes = some stI ∧ cend % 8 = 0 ∧
      runInput frameVs.length stI = some ⟨[], cend, [(Value.null, frameVs)], none⟩ ∧
      processNext ⟨[], cend, [(Value.null, frameVs)], none⟩ =
        some (false, ⟨[], cend, [(Value.null, frameVs)], none⟩) :=
  stream_framing [] 20 frameVs frameOut (by rfl)
    (by
      intro v hv bs hbs
      rcases List.mem_cons.mp hv with rfl | hv2
      · rw [show planktonEncode [] 20 (Value.arr [.int 1, .int 2, .int 3]) =
            some [2, 3, 0, 2, 0, 4, 0, 6] from rfl] at hbs
        obtain rfl := Option.some.inj hbs
        rfl
      · rcases List.mem_cons.mp hv2 with rfl | hv3
        · rw [show planktonEncode [] 20 (Value.map [(.bytes [97], .int 3)]) =
              some [3, 1, 1, 1, 97, 0, 6] from rfl] at hbs
          obtain rfl := Option.some.inj hbs
          rfl
        · cases hv3)

/-! ## C6: truncation of a fully consumed buffer is caught

The development below analyzes a successful `run`: the consumed bytes
are a determined block `pre` of the input, the run is insensitive to
what follows `pre`, and on any strict front part of `pre` the same run
raises (`DRes.err`) — it can neither succeed nor return a default.
Fuel bookkeeping (`run_no_fuelOut`, `run_ok_mono`) then transfers the
error to the truncated buffer's own `decFuel`. -/

/-- Inversion for a successful `DRes.bind`. -/
theorem DRes.bind_eq_ok {α β : Type} {x : DRes α} {f : α → DRes β} {r : β}
    (h : x.bind f = .ok r) : ∃ a, x = .ok a ∧ f a = .ok r := by
  cases x with
  | ok a => exact ⟨a, rfl, h⟩
  | err => simp at h
  | fuelOut => simp at h

/-- A front part of `b :: p` is empty or `b ::` a front part of `p`. -/
theorem front_cons_cases {α : Type} (tr : List α) (b : α) (p : List α)
    (h : tr <+: b :: p) : tr = [] ∨ ∃ t2, tr = b :: t2 ∧ t2 <+: p := by
  cases tr with
  | nil => exact Or.inl rfl
  | cons a t2 =>
    obtain ⟨u, hu⟩ := h
    injection hu with h1 h2
    exact Or.inr ⟨t2, by rw [h1], ⟨u, h2⟩⟩

/-- A front part of `p ++ q` stops inside `p` or covers `p` and
continues into `q`. -/
theorem front_append_cases {α : Type} (tr p q : List α) (h : tr <+: p ++ q) :
    (tr <+: p ∧ tr.length ≤ p.length) ∨ (∃ t2, tr = p ++ t2 ∧ t2 <+: q) := by
  obtain ⟨u, hu⟩ := h
  rcases List.append_eq_append_iff.mp hu with ⟨a, ha1, _⟩ | ⟨c, hc1, hc2⟩
  · refine Or.inl ⟨⟨a, ha1.symm⟩, ?_⟩
    have := congrArg List.length ha1
    simp only [List.length_append] at this
    omega
  · exact Or.inr ⟨c, hc1, ⟨u, hc2.symm⟩⟩

/-! One-step unfoldings of `run`, one per dispatched tag of
`read_object` and one per loop equation, so the case analyses below
can rewrite with the relevant branch directly. -/

theorem runTopNil (cfg : DecCfg) (fuel : Nat) (s : List (Option Nat)) (d : List DecObj) :
    run cfg (fuel + 1) .top ⟨[], s, d⟩ = .err := rfl

theorem runTag0 (cfg : DecCfg) (fuel : Nat) (inp : List Nat) (s : List (Option Nat))
    (d : List DecObj) :
    run cfg (fuel + 1) .top ⟨0 :: inp, s, d⟩ =
      (dReadUint32 ⟨inp, s, d⟩).bind fun nt => .ok (.int (pyUnzigzag nt.1), nt.2) := rfl

theorem runTag1 (cfg : DecCfg) (fuel : Nat) (inp : List Nat) (s : List (Option Nat))
    (d : List DecObj) :
    run cfg (fuel + 1) .top ⟨1 :: inp, s, d⟩ =
      (dReadUint32 ⟨inp, s, d⟩).bind fun nt =>
        (dReadBytes nt.1 nt.2).bind fun bs => .ok (.bytes bs.1, bs.2) := rfl

theorem runTag13 (cfg : DecCfg) (fuel : Nat) (inp : List Nat) (s : List (Option Nat))
    (d : List DecObj) :
    run cfg (fuel + 1) .top ⟨13 :: inp, s, d⟩ =
      (dReadUint32 ⟨inp, s, d⟩).bind fun et =>
        (dReadUint32 et.2).bind fun nt =>
          (dReadBytes nt.1 nt.2).bind fun bs =>
            if cfg.hasCodec then
              match pyDecodeEnc et.1 bs.1 with
              | some s' => .ok (.str s', bs.2)
              | none => .err
            else .err := rfl

theorem runTag2 (cfg : DecCfg) (fuel : Nat) (inp : List Nat) (s : List (Option Nat))
    (d : List DecObj) :
    run cfg (fuel + 1) .top ⟨2 :: inp, s, d⟩ =
      (dReadUint32 ⟨inp, s, d⟩).bind fun nt => run cfg fuel (.arrLoop nt.1 []) nt.2 := rfl

theorem runTag3 (cfg : DecCfg) (fuel : Nat) (inp : List Nat) (s : List (Option Nat))
    (d : List DecObj) :
    run cfg (fuel + 1) .top ⟨3 :: inp, s, d⟩ =
      (dReadUint32 ⟨inp, s, d⟩).bind fun nt => run cfg fuel (.mapLoop nt.1 []) nt.2 := rfl

theorem runTag4 (cfg : DecCfg) (fuel : Nat) (inp : List Nat) (s : List (Option Nat))
    (d : List DecObj) :
    run cfg (fuel + 1) .top ⟨4 :: inp, s, d⟩ = .ok (.null, ⟨inp, s, d⟩) := rfl

theorem runTag5 (cfg : DecCfg) (fuel : Nat) (inp : List Nat) (s : List (Option Nat))
    (d : List DecObj) :
    run cfg (fuel + 1) .top ⟨5 :: inp, s, d⟩ = .ok (.bool true, ⟨inp, s, d⟩) := rfl

theorem runTag6 (cfg : DecCfg) (fuel : Nat) (inp : List Nat) (s : List (Option Nat))
    (d : List DecObj) :
    run cfg (fuel + 1) .top ⟨6 :: inp, s, d⟩ = .ok (.bool false, ⟨inp, s, d⟩) := rfl

theorem runTag7 (cfg : DecCfg) (fuel : Nat) (inp : List Nat) (s : List (Option Nat))
    (d : List DecObj) :
    run cfg (fuel + 1) .top ⟨7 :: inp, s, d⟩ =
      (dReadUint32 ⟨inp, s, d⟩).bind fun ft =>
        (run cfg fuel .top { ft.2 with slots := ft.2.slots ++ [none] }).bind fun ht =>
          if cfg.hasDefaultObject then
            (run cfg fuel (.mapLoop ft.1 [])
              { ht.2 with dheap := ht.2.dheap ++ [⟨ht.1, .null⟩],
                          slots := ht.2.slots.set ft.2.slots.length
                            (some ht.2.dheap.length) }).bind fun pt =>
              match pt.1 with
              | .map payload =>
                .ok (.obj ht.2.dheap.length,
                  { pt.2 with
                    dheap := (pt.2.dheap.set ht.2.dheap.length ⟨ht.1, .map payload⟩) })
              | _ => .err
          else .err := rfl

theorem runTag8 (cfg : DecCfg) (fuel : Nat) (inp : List Nat) (s : List (Option Nat))
    (d : List DecObj) :
    run cfg (fuel + 1) .top ⟨8 :: inp, s, d⟩ =
      (dReadUint32 ⟨inp, s, d⟩).bind fun ot =>
        if 0 ≤ (ot.2.slots.length : Int) - ot.1 - 1 then
          match ot.2.slots.get? ((ot.2.slots.length : Int) - ot.1 - 1).toNat with
          | some (some hid) => .ok (.obj hid, ot.2)
          | some none => .ok (.null, ot.2)
          | none => .err
        else .err := rfl

theorem runTag12 (cfg : DecCfg) (fuel : Nat) (inp : List Nat) (s : List (Option Nat))
    (d : List DecObj) :
    run cfg (fuel + 1) .top ⟨12 :: inp, s, d⟩ =
      (dReadUint32 ⟨inp, s, d⟩).bind fun nt =>
        (dReadBytes nt.1 nt.2).bind fun bs => .ok (.blob bs.1, bs.2) := rfl

theorem runArr0 (cfg : DecCfg) (fuel : Nat) (acc : List Value) (st : DecSt) :
    run cfg (fuel + 1) (.arrLoop 0 acc) st = .ok (.arr acc, st) := rfl

theorem runArrS (cfg : DecCfg) (fuel : Nat) (n : Nat) (acc : List Value) (st : DecSt) :
    run cfg (fuel + 1) (.arrLoop (n + 1) acc) st =
      (run cfg fuel .top st).bind fun vt =>
        run cfg fuel (.arrLoop n (acc ++ [vt.1])) vt.2 := rfl

theorem runMap0 (cfg : DecCfg) (fuel : Nat) (acc : List (Value × Value)) (st : DecSt) :
    run cfg (fuel + 1) (.mapLoop 0 acc) st = .ok (.map acc, st) := rfl

theorem runMapS (cfg : DecCfg) (fuel : Nat) (n : Nat) (acc : List (Value × Value))
    (st : DecSt) :
    run cfg (fuel + 1) (.mapLoop (n + 1) acc) st =
      (run cfg fuel .top st).bind fun kt =>
        (run cfg fuel .top kt.2).bind fun vt =>
          match dictInsert acc kt.1 vt.1 with
          | some acc2 => run cfg fuel (.mapLoop n acc2) vt.2
          | none => .err := rfl

/-- `decode_uint32_from`'s loop consumes a determined block: the parse
is insensitive to the bytes after it, and any strict front part of it
fails the parse (its last byte has the continuation bit set). -/
theorem decodeUint32Loop_split :
    ∀ (inp : List Nat) (result offset next n : Nat) (rest : List Nat),
      decodeUint32Loop result offset next inp = some (n, rest) →
      ∃ pre, inp = pre ++ rest ∧
        (∀ rest2, decodeUint32Loop result offset next (pre ++ rest2) = some (n, rest2)) ∧
        (∀ tr, tr <+: pre → tr.length < pre.length →
          decodeUint32Loop result offset next tr = none) := by
  intro inp
  induction inp with
  | nil =>
    intro result offset next n rest h
    rw [decodeUint32Loop] at h
    by_cases hn : 0x80 ≤ next
    · rw [if_pos hn] at h; cases h
    · rw [if_neg hn] at h
      simp only [Option.some.injEq, Prod.mk.injEq] at h
      obtain ⟨rfl, rfl⟩ := h
      refine ⟨[], rfl, ?_, ?_⟩
      · intro rest2
        cases rest2 with
        | nil => simp [decodeUint32Loop, hn]
        | cons c r2 => simp [decodeUint32Loop, hn]
      · intro tr htr hlen
        simp at hlen
  | cons b r ih =>
    intro result offset next n rest h
    rw [decodeUint32Loop] at h
    by_cases hn : 0x80 ≤ next
    · rw [if_pos hn] at h
      obtain ⟨pre', hEq, hpar, htr⟩ := ih _ _ _ _ _ h
      refine ⟨b :: pre', by rw [List.cons_append, hEq], ?_, ?_⟩
      · intro rest2
        rw [List.cons_append, decodeUint32Loop, if_pos hn]
        exact hpar rest2
      · intro tr h1 h2
        rcases front_cons_cases tr b pre' h1 with rfl | ⟨t2, rfl, ht2⟩
        · rw [decodeUint32Loop, if_pos hn]
        · rw [decodeUint32Loop, if_pos hn]
          exact htr t2 ht2 (by simpa using h2)
    · rw [if_neg hn] at h
      simp only [Option.some.injEq, Prod.mk.injEq] at h
      obtain ⟨rfl, rfl⟩ := h
      refine ⟨[], rfl, ?_, ?_⟩
      · intro rest2
        cases rest2 with
        | nil => simp [decodeUint32Loop, hn]
        | cons c r2 => simp [decodeUint32Loop, hn]
      · intro tr htr hlen
        simp at hlen

/-- `decode_uint32_from` consumes a determined nonempty block. -/
theorem decodeUint32L_split (inp : List Nat) (n : Nat) (rest : List Nat)
    (h : decodeUint32L inp = some (n, rest)) :
    ∃ pre, pre ≠ [] ∧ inp = pre ++ rest ∧
      (∀ rest2, decodeUint32L (pre ++ rest2) = some (n, rest2)) ∧
      (∀ tr, tr <+: pre → tr.length < pre.length → decodeUint32L tr = none) := by
  cases inp with
  | nil => cases h
  | cons b r =>
    rw [decodeUint32L] at h
    obtain ⟨pre', hEq, hpar, htr⟩ := decodeUint32Loop_split r _ _ _ _ _ h
    refine ⟨b :: pre', by simp, by rw [List.cons_append, hEq], ?_, ?_⟩
    · intro rest2
      rw [List.cons_append, decodeUint32L]
      exact hpar rest2
    · intro tr h1 h2
      rcases front_cons_cases tr b pre' h1 with rfl | ⟨t2, rfl, ht2⟩
      · rfl
      · rw [decodeUint32L]
        exact htr t2 ht2 (by simpa using h2)

/-- `_decode_uint32` on the decoder state: determined consumed block,
untouched slots and heap, suffix insensitivity, and failure on every
strict front part. -/
theorem dReadUint32_split (inp : List Nat) (s : List (Option Nat)) (d : List DecObj)
    (n : Nat) (rest : List Nat) (s2 : List (Option Nat)) (d2 : List DecObj)
    (h : dReadUint32 ⟨inp, s, d⟩ = .ok (n, ⟨rest, s2, d2⟩)) :
    s = s2 ∧ d = d2 ∧ ∃ pre, pre ≠ [] ∧ inp = pre ++ rest ∧
      (∀ rest2, dReadUint32 ⟨pre ++ rest2, s, d⟩ = .ok (n, ⟨rest2, s, d⟩)) ∧
      (∀ tr, tr <+: pre → tr.length < pre.length → dReadUint32 ⟨tr, s, d⟩ = .err) := by
  rw [dReadUint32] at h
  cases hd : decodeUint32L inp with
  | none => rw [hd] at h; cases h
  | some p =>
    obtain ⟨n', rest'⟩ := p
    rw [hd] at h
    simp only [DRes.ok.injEq, Prod.mk.injEq, DecSt.mk.injEq] at h
    obtain ⟨rfl, rfl, rfl, rfl⟩ := h
    obtain ⟨pre, hne, hEq, hpar, htr⟩ := decodeUint32L_split inp n' rest' hd
    refine ⟨rfl, rfl, pre, hne, hEq, ?_, ?_⟩
    · intro rest2
      simp only [dReadUint32, hpar]
    · intro tr h1 h2
      simp only [dReadUint32, htr tr h1 h2]

/-- The fixed-count byte reader consumes exactly its block. -/
theorem dReadBytes_split :
    ∀ (n : Nat) (inp : List Nat) (s : List (Option Nat)) (d : List DecObj)
      (bsr rest : List Nat) (s2 : List (Option Nat)) (d2 : List DecObj),
      dReadBytes n ⟨inp, s, d⟩ = .ok (bsr, ⟨rest, s2, d2⟩) →
      s = s2 ∧ d = d2 ∧ inp = bsr ++ rest ∧
        (∀ rest2, dReadBytes n ⟨bsr ++ rest2, s, d⟩ = .ok (bsr, ⟨rest2, s, d⟩)) ∧
        (∀ tr, tr <+: bsr → tr.length < bsr.length → dReadBytes n ⟨tr, s, d⟩ = .err) := by
  intro n
  induction n with
  | zero =>
    intro inp s d bsr rest s2 d2 h
    rw [dReadBytes] at h
    simp only [DRes.ok.injEq, Prod.mk.injEq, DecSt.mk.injEq] at h
    obtain ⟨rfl, rfl, rfl, rfl⟩ := h
    exact ⟨rfl, rfl, rfl, fun r2 => rfl, fun tr h1 h2 => by simp at h2⟩
  | succ n ih =>
    intro inp s d bsr rest s2 d2 h
    cases inp with
    | nil => simp [dReadBytes] at h
    | cons b r =>
      rw [show dReadBytes (n + 1) ⟨b :: r, s, d⟩ =
        (dReadBytes n ⟨r, s, d⟩).bind (fun br => .ok (b :: br.1, br.2)) from rfl] at h
      obtain ⟨⟨bs', rest', s', d'⟩, h1, h2⟩ := DRes.bind_eq_ok h
      simp only [DRes.ok.injEq, Prod.mk.injEq, DecSt.mk.injEq] at h2
      obtain ⟨rfl, rfl, rfl, rfl⟩ := h2
      obtain ⟨rfl, rfl, hEq, hpar, htr⟩ := ih r s d bs' rest' s' d' h1
      refine ⟨rfl, rfl, by rw [List.cons_append, hEq], ?_, ?_⟩
      · intro r2
        rw [List.cons_append]
        rw [show dReadBytes (n + 1) ⟨b :: (bs' ++ r2), s, d⟩ =
          (dReadBytes n ⟨bs' ++ r2, s, d⟩).bind (fun br => .ok (b :: br.1, br.2)) from rfl]
        rw [hpar r2]
        rfl
      · intro tr ht hlen
        rcases front_cons_cases tr b bs' ht with rfl | ⟨t2, rfl, ht2⟩
        · rfl
        · rw [show dReadBytes (n + 1) ⟨b :: t2, s, d⟩ =
            (dReadBytes n ⟨t2, s, d⟩).bind (fun br => .ok (b :: br.1, br.2)) from rfl]
          rw [htr t2 ht2 (by simpa using hlen)]
          rfl

/-- The central analysis of a successful `read_object` run: the bytes
it consumed are a determined block `pre` of the input (the rest is
untouched), the whole run — result, slot table and decoded heap
included — is insensitive to what follows `pre`, a `read_object`
consumes at least the tag byte, and on every strict front part of
`pre` the run raises (`DRes.err`) at the same fuel: it can neither
succeed nor produce a partial or default value. -/
theorem run_split (cfg : DecCfg) :
    ∀ (fuel : Nat) (req : Req) (inp : List Nat) (s : List (Option Nat)) (d : List DecObj)
      (v : Value) (rest : List Nat) (s1 : List (Option Nat)) (d1 : List DecObj),
      run cfg fuel req ⟨inp, s, d⟩ = .ok (v, ⟨rest, s1, d1⟩) →
      ∃ pre, inp = pre ++ rest ∧ (req = .top → pre ≠ []) ∧
        (∀ rest2, run cfg fuel req ⟨pre ++ rest2, s, d⟩ = .ok (v, ⟨rest2, s1, d1⟩)) ∧
        (∀ tr, tr <+: pre → tr.length < pre.length →
          run cfg fuel req ⟨tr, s, d⟩ = .err) := by
  intro fuel
  induction fuel with
  | zero =>
    intro req inp s d v rest s1 d1 h
    exact absurd h (by simp [run])
  | succ fuel ih =>
    intro req inp s d v rest s1 d1 h
    match req with
    | .top =>
      cases inp with
      | nil =>
        rw [runTopNil] at h
        simp at h
      | cons b in' =>
        by_cases hb0 : b = 0
        · subst hb0
          rw [runTag0] at h
          obtain ⟨⟨nv, restU, sU, dU⟩, hu, h⟩ := DRes.bind_eq_ok h
          simp only [] at h
          obtain ⟨rfl, rfl, preU, hUne, hUeq, hUpar, hUtr⟩ :=
            dReadUint32_split in' s d nv restU sU dU hu
          simp only [DRes.ok.injEq, Prod.mk.injEq, DecSt.mk.injEq] at h
          obtain ⟨rfl, rfl, rfl, rfl⟩ := h
          refine ⟨0 :: preU, by rw [List.cons_append, hUeq], fun _ => by simp, ?_, ?_⟩
          · intro rest2
            rw [List.cons_append, runTag0, hUpar rest2]
            rfl
          · intro tr htr hlen
            rcases front_cons_cases tr 0 preU htr with rfl | ⟨t2, rfl, ht2⟩
            · rw [runTopNil]
            · rw [runTag0, hUtr t2 ht2 (by simpa using hlen)]
              rfl
        by_cases hb1 : b = 1
        · subst hb1
          rw [runTag1] at h
          obtain ⟨⟨cnt, restU, sU, dU⟩, hu, h⟩ := DRes.bind_eq_ok h
          simp only [] at h
          obtain ⟨rfl, rfl, preU, hUne, hUeq, hUpar, hUtr⟩ :=
            dReadUint32_split in' s d cnt restU sU dU hu
          obtain ⟨⟨bsv, restB, sB, dB⟩, hbr, h⟩ := DRes.bind_eq_ok h
          simp only [] at h
          obtain ⟨rfl, rfl, hBeq, hBpar, hBtr⟩ :=
            dReadBytes_split cnt restU s d bsv restB sB dB hbr
          simp only [DRes.ok.injEq, Prod.mk.injEq, DecSt.mk.injEq] at h
          obtain ⟨rfl, rfl, rfl, rfl⟩ := h
          refine ⟨1 :: (preU ++ bsv), by rw [hUeq, hBeq]; simp, fun _ => by simp, ?_, ?_⟩
          · intro rest2
            rw [List.cons_append, List.append_assoc, runTag1, hUpar (bsv ++ rest2)]
            simp only [DRes.ok_bind]
            rw [hBpar rest2]
            rfl
          · intro tr htr hlen
            rcases front_cons_cases tr 1 (preU ++ bsv) htr with rfl | ⟨t2, rfl, ht2⟩
            · rw [runTopNil]
            · simp only [List.length_cons, List.length_append] at hlen
              rcases front_append_cases t2 preU bsv ht2 with ⟨hU, hUle⟩ | ⟨t3, rfl, ht3⟩
              · by_cases heq : t2.length = preU.length
                · obtain rfl := hU.eq_of_length heq
                  rw [runTag1]
                  have h0 := hUpar []
                  rw [List.append_nil] at h0
                  rw [h0]
                  simp only [DRes.ok_bind]
                  have hbne : bsv ≠ [] := by
                    intro hb
                    subst hb
                    simp only [List.length_nil] at hlen
                    omega
                  rw [hBtr [] List.nil_prefix
                    (by simpa using List.length_pos.mpr hbne)]
                  rfl
                · rw [runTag1, hUtr t2 hU (by omega)]
                  rfl
              · rw [runTag1, hUpar t3]
                simp only [DRes.ok_bind]
                rw [hBtr t3 ht3 (by simp only [List.length_append] at hlen; omega)]
                rfl
        by_cases hb13 : b = 13
        · subst hb13
          rw [runTag13] at h
          obtain ⟨⟨ev, restE, sE, dE⟩, he, h⟩ := DRes.bind_eq_ok h
          simp only [] at h
          obtain ⟨rfl, rfl, preE, hEne, hEeq, hEpar, hEtr⟩ :=
            dReadUint32_split in' s d ev restE sE dE he
          obtain ⟨⟨cnt, restU, sU, dU⟩, hu, h⟩ := DRes.bind_eq_ok h
          simp only [] at h
          obtain ⟨rfl, rfl, preU, hUne, hUeq, hUpar, hUtr⟩ :=
            dReadUint32_split restE s d cnt restU sU dU hu
          obtain ⟨⟨bsv, restB, sB, dB⟩, hbr, h⟩ := DRes.bind_eq_ok h
          simp only [] at h
          obtain ⟨rfl, rfl, hBeq, hBpar, hBtr⟩ :=
            dReadBytes_split cnt restU s d bsv restB sB dB hbr
          by_cases hcc : cfg.hasCodec = true
          case neg => rw [if_neg hcc] at h; simp at h
          case pos =>
          rw [if_pos hcc] at h
          cases hpd : pyDecodeEnc ev bsv with
          | none => rw [hpd] at h; simp at h
          | some sv =>
            rw [hpd] at h
            simp only [DRes.ok.injEq, Prod.mk.injEq, DecSt.mk.injEq] at h
            obtain ⟨rfl, rfl, rfl, rfl⟩ := h
            refine ⟨13 :: (preE ++ (preU ++ bsv)), by rw [hEeq, hUeq, hBeq]; simp,
              fun _ => by simp, ?_, ?_⟩
            · intro rest2
              rw [show (13 :: (preE ++ (preU ++ bsv))) ++ rest2 =
                13 :: (preE ++ (preU ++ (bsv ++ rest2))) from by simp]
              rw [runTag13, hEpar (preU ++ (bsv ++ rest2))]
              simp only [DRes.ok_bind]
              rw [hUpar (bsv ++ rest2)]
              simp only [DRes.ok_bind]
              rw [hBpar rest2]
              simp only [DRes.ok_bind]
              rw [if_pos hcc, hpd]
            · intro tr htr hlen
              rcases front_cons_cases tr 13 (preE ++ (preU ++ bsv)) htr
                with rfl | ⟨t2, rfl, ht2⟩
              · rw [runTopNil]
              · simp only [List.length_cons, List.length_append] at hlen
                rcases front_append_cases t2 preE (preU ++ bsv) ht2
                  with ⟨hE, hEle⟩ | ⟨t3, rfl, ht3⟩
                · by_cases heq : t2.length = preE.length
                  · obtain rfl := hE.eq_of_length heq
                    rw [runTag13]
                    have h0 := hEpar []
                    rw [List.append_nil] at h0
                    rw [h0]
                    simp only [DRes.ok_bind]
                    rw [hUtr [] List.nil_prefix
                      (by simpa using List.length_pos.mpr hUne)]
                    rfl
                  · rw [runTag13, hEtr t2 hE (by omega)]
                    rfl
                · rcases front_append_cases t3 preU bsv ht3
                    with ⟨hU, hUle⟩ | ⟨t4, rfl, ht4⟩
                  · by_cases heq : t3.length = preU.length
                    · obtain rfl := hU.eq_of_length heq
                      rw [runTag13, hEpar t3]
                      simp only [DRes.ok_bind]
                      have h0 := hUpar []
                      rw [List.append_nil] at h0
                      rw [h0]
                      simp only [DRes.ok_bind]
                      have hbne : bsv ≠ [] := by
                        intro hb
                        subst hb
                        simp only [List.length_append, List.length_nil] at hlen
                        omega
                      rw [hBtr [] List.nil_prefix
                        (by simpa using List.length_pos.mpr hbne)]
                      rfl
                    · rw [runTag13, hEpar t3]
                      simp only [DRes.ok_bind]
                      rw [hUtr t3 hU (by omega)]
                      rfl
                  · rw [runTag13, hEpar (preU ++ t4)]
                    simp only [DRes.ok_bind]
                    rw [hUpar t4]
                    simp only [DRes.ok_bind]
                    rw [hBtr t4 ht4
                      (by simp only [List.length_append] at hlen; omega)]
                    rfl
        by_cases hb2 : b = 2
        · subst hb2
          rw [runTag2] at h
          obtain ⟨⟨cnt, restU, sU, dU⟩, hu, h⟩ := DRes.bind_eq_ok h
          simp only [] at h
          obtain ⟨rfl, rfl, preU, hUne, hUeq, hUpar, hUtr⟩ :=
            dReadUint32_split in' s d cnt restU sU dU hu
          obtain ⟨preL, hLeq, _, hLpar, hLtr⟩ :=
            ih (.arrLoop cnt []) restU s d v rest s1 d1 h
          refine ⟨2 :: (preU ++ preL), by rw [hUeq, hLeq]; simp, fun _ => by simp, ?_, ?_⟩
          · intro rest2
            rw [List.cons_append, List.append_assoc, runTag2, hUpar (preL ++ rest2)]
            simp only [DRes.ok_bind]
            exact hLpar rest2
          · intro tr htr hlen
            rcases front_cons_cases tr 2 (preU ++ preL) htr with rfl | ⟨t2, rfl, ht2⟩
            · rw [runTopNil]
            · simp only [List.length_cons, List.length_append] at hlen
              rcases front_append_cases t2 preU preL ht2 with ⟨hU, hUle⟩ | ⟨t3, rfl, ht3⟩
              · by_cases heq : t2.length = preU.length
                · obtain rfl := hU.eq_of_length heq
                  rw [runTag2]
                  have h0 := hUpar []
                  rw [List.append_nil] at h0
                  rw [h0]
                  simp only [DRes.ok_bind]
                  have hLne : preL ≠ [] := by
                    intro hb
                    subst hb
                    simp only [List.length_nil] at hlen
                    omega
                  exact hLtr [] List.nil_prefix
                    (by simpa using List.length_pos.mpr hLne)
                · rw [runTag2, hUtr t2 hU (by omega)]
                  rfl
              · rw [runTag2, hUpar t3]
                simp only [DRes.ok_bind]
                exact hLtr t3 ht3 (by simp only [List.length_append] at hlen; omega)
        by_cases hb3 : b = 3
        · subst hb3
          rw [runTag3] at h
          obtain ⟨⟨cnt, restU, sU, dU⟩, hu, h⟩ := DRes.bind_eq_ok h
          simp only [] at h
          obtain ⟨rfl, rfl, preU, hUne, hUeq, hUpar, hUtr⟩ :=
            dReadUint32_split in' s d cnt restU sU dU hu
          obtain ⟨preL, hLeq, _, hLpar, hLtr⟩ :=
            ih (.mapLoop cnt []) restU s d v rest s1 d1 h
          refine ⟨3 :: (preU ++ preL), by rw [hUeq, hLeq]; simp, fun _ => by simp, ?_, ?_⟩
          · intro rest2
            rw [List.cons_append, List.append_assoc, runTag3, hUpar (preL ++ rest2)]
            simp only [DRes.ok_bind]
            exact hLpar rest2
          · intro tr htr hlen
            rcases front_cons_cases tr 3 (preU ++ preL) htr with rfl | ⟨t2, rfl, ht2⟩
            · rw [runTopNil]
            · simp only [List.length_cons, List.length_append] at hlen
              rcases front_append_cases t2 preU preL ht2 with ⟨hU, hUle⟩ | ⟨t3, rfl, ht3⟩
              · by_cases heq : t2.length = preU.length
                · obtain rfl := hU.eq_of_length heq
                  rw [runTag3]
                  have h0 := hUpar []
                  rw [List.append_nil] at h0
                  rw [h0]
                  simp only [DRes.ok_bind]
                  have hLne : preL ≠ [] := by
                    intro hb
                    subst hb
                    simp only [List.length_nil] at hlen
                    omega
                  exact hLtr [] List.nil_prefix
                    (by simpa using List.length_pos.mpr hLne)
                · rw [runTag3, hUtr t2 hU (by omega)]
                  rfl
              · rw [runTag3, hUpar t3]
                simp only [DRes.ok_bind]
                exact hLtr t3 ht3 (by simp only [List.length_append] at hlen; omega)
        by_cases hb4 : b = 4
        · subst hb4
          rw [runTag4] at h
          simp only [DRes.ok.injEq, Prod.mk.injEq, DecSt.mk.injEq] at h
          obtain ⟨rfl, rfl, rfl, rfl⟩ := h
          refine ⟨[4], rfl, fun _ => by simp, ?_, ?_⟩
          · intro rest2
            rw [show ([4] : List Nat) ++ rest2 = 4 :: rest2 from rfl, runTag4]
          · intro tr htr hlen
            rcases front_cons_cases tr 4 [] htr with rfl | ⟨t2, rfl, ht2⟩
            · rw [runTopNil]
            · simp only [List.length_cons, List.length_nil] at hlen
              omega
        by_cases hb5 : b = 5
        · subst hb5
          rw [runTag5] at h
          simp only [DRes.ok.injEq, Prod.mk.injEq, DecSt.mk.injEq] at h
          obtain ⟨rfl, rfl, rfl, rfl⟩ := h
          refine ⟨[5], rfl, fun _ => by simp, ?_, ?_⟩
          · intro rest2
            rw [show ([5] : List Nat) ++ rest2 = 5 :: rest2 from rfl, runTag5]
          · intro tr htr hlen
            rcases front_cons_cases tr 5 [] htr with rfl | ⟨t2, rfl, ht2⟩
            · rw [runTopNil]
            · simp only [List.length_cons, List.length_nil] at hlen
              omega
        by_cases hb6 : b = 6
        · subst hb6
          rw [runTag6] at h
          simp only [DRes.ok.injEq, Prod.mk.injEq, DecSt.mk.injEq] at h
          obtain ⟨rfl, rfl, rfl, rfl⟩ := h
          refine ⟨[6], rfl, fun _ => by simp, ?_, ?_⟩
          · intro rest2
            rw [show ([6] : List Nat) ++ rest2 = 6 :: rest2 from rfl, runTag6]
          · intro tr htr hlen
            rcases front_cons_cases tr 6 [] htr with rfl | ⟨t2, rfl, ht2⟩
            · rw [runTopNil]
            · simp only [List.length_cons, List.length_nil] at hlen
              omega
        by_cases hb7 : b = 7
        · subst hb7
          rw [runTag7] at h
          obtain ⟨⟨fieldc, restU, sU, dU⟩, hu, h⟩ := DRes.bind_eq_ok h
          simp only [] at h
          obtain ⟨rfl, rfl, preU, hUne, hUeq, hUpar, hUtr⟩ :=
            dReadUint32_split in' s d fieldc restU sU dU hu
          obtain ⟨⟨hv, restH, sH, dH⟩, hh, h⟩ := DRes.bind_eq_ok h
          simp only [] at h
          obtain ⟨preH, hHeq, hHne, hHpar, hHtr⟩ :=
            ih .top restU (s ++ [none]) d hv restH sH dH hh
          by_cases hcd : cfg.hasDefaultObject = true
          case neg => rw [if_neg hcd] at h; simp at h
          case pos =>
          rw [if_pos hcd] at h
          obtain ⟨⟨pv, restM, sM, dM⟩, hm, h⟩ := DRes.bind_eq_ok h
          simp only [] at h
          obtain ⟨preM, hMeq, _, hMpar, hMtr⟩ :=
            ih (.mapLoop fieldc []) restH (sH.set s.length (some dH.length))
              (dH ++ [⟨hv, .null⟩]) pv restM sM dM hm
          cases pv with
          | int n' => simp at h
          | str s' => simp at h
          | bytes s' => simp at h
          | blob s' => simp at h
          | arr vs' => simp at h
          | null => simp at h
          | bool b' => simp at h
          | obj i' => simp at h
          | map payload =>
            simp only [DRes.ok.injEq, Prod.mk.injEq, DecSt.mk.injEq] at h
            obtain ⟨rfl, rfl, rfl, rfl⟩ := h
            refine ⟨7 :: (preU ++ (preH ++ preM)), by rw [hUeq, hHeq, hMeq]; simp,
              fun _ => by simp, ?_, ?_⟩
            · intro rest2
              rw [show (7 :: (preU ++ (preH ++ preM))) ++ rest2 =
                7 :: (preU ++ (preH ++ (preM ++ rest2))) from by simp]
              rw [runTag7, hUpar (preH ++ (preM ++ rest2))]
              simp only [DRes.ok_bind]
              rw [hHpar (preM ++ rest2)]
              simp only [DRes.ok_bind]
              rw [if_pos hcd, hMpar rest2]
              rfl
            · intro tr htr hlen
              rcases front_cons_cases tr 7 (preU ++ (preH ++ preM)) htr
                with rfl | ⟨t2, rfl, ht2⟩
              · rw [runTopNil]
              · simp only [List.length_cons, List.length_append] at hlen
                rcases front_append_cases t2 preU (preH ++ preM) ht2
                  with ⟨hU, hUle⟩ | ⟨t3, rfl, ht3⟩
                · by_cases heq : t2.length = preU.length
                  · obtain rfl := hU.eq_of_length heq
                    rw [runTag7]
                    have h0 := hUpar []
                    rw [List.append_nil] at h0
                    rw [h0]
                    simp only [DRes.ok_bind]
                    rw [hHtr [] List.nil_prefix
                      (by simpa using List.length_pos.mpr (hHne rfl))]
                    rfl
                  · rw [runTag7, hUtr t2 hU (by omega)]
                    rfl
                · rcases front_append_cases t3 preH preM ht3
                    with ⟨hH, hHle⟩ | ⟨t4, rfl, ht4⟩
                  · by_cases heq : t3.length = preH.length
                    · obtain rfl := hH.eq_of_length heq
                      rw [runTag7, hUpar t3]
                      simp only [DRes.ok_bind]
                      have h0 := hHpar []
                      rw [List.append_nil] at h0
                      rw [h0]
                      simp only [DRes.ok_bind]
                      rw [if_pos hcd]
                      have hMne : preM ≠ [] := by
                        intro hb
                        subst hb
                        simp only [List.length_append, List.length_nil] at hlen
                        omega
                      rw [hMtr [] List.nil_prefix
                        (by simpa using List.length_pos.mpr hMne)]
                      rfl
                    · rw [runTag7, hUpar t3]
                      simp only [DRes.ok_bind]
                      rw [hHtr t3 hH (by omega)]
                      rfl
                  · rw [runTag7, hUpar (preH ++ t4)]
                    simp only [DRes.ok_bind]
                    rw [hHpar t4]
                    simp only [DRes.ok_bind]
                    rw [if_pos hcd]
                    rw [hMtr t4 ht4
                      (by simp only [List.length_append] at hlen; omega)]
                    rfl
        by_cases hb8 : b = 8
        · subst hb8
          rw [runTag8] at h
          obtain ⟨⟨off, restU, sU, dU⟩, hu, h⟩ := DRes.bind_eq_ok h
          simp only [] at h
          obtain ⟨rfl, rfl, preU, hUne, hUeq, hUpar, hUtr⟩ :=
            dReadUint32_split in' s d off restU sU dU hu
          by_cases hix : (0 : Int) ≤ (s.length : Int) - off - 1
          case neg => rw [if_neg hix] at h; simp at h
          case pos =>
          rw [if_pos hix] at h
          cases hg : s.get? ((s.length : Int) - off - 1).toNat with
          | none => rw [hg] at h; simp at h
          | some o =>
            rw [hg] at h
            cases o with
            | none =>
              simp only [DRes.ok.injEq, Prod.mk.injEq, DecSt.mk.injEq] at h
              obtain ⟨rfl, rfl, rfl, rfl⟩ := h
              refine ⟨8 :: preU, by rw [List.cons_append, hUeq], fun _ => by simp, ?_, ?_⟩
              · intro rest2
                rw [List.cons_append, runTag8, hUpar rest2]
                simp only [DRes.ok_bind]
                rw [if_pos hix, hg]
              · intro tr htr hlen
                rcases front_cons_cases tr 8 preU htr with rfl | ⟨t2, rfl, ht2⟩
                · rw [runTopNil]
                · rw [runTag8, hUtr t2 ht2 (by simpa using hlen)]
                  rfl
            | some hid =>
              simp only [DRes.ok.injEq, Prod.mk.injEq, DecSt.mk.injEq] at h
              obtain ⟨rfl, rfl, rfl, rfl⟩ := h
              refine ⟨8 :: preU, by rw [List.cons_append, hUeq], fun _ => by simp, ?_, ?_⟩
              · intro rest2
                rw [List.cons_append, runTag8, hUpar rest2]
                simp only [DRes.ok_bind]
                rw [if_pos hix, hg]
              · intro tr htr hlen
                rcases front_cons_cases tr 8 preU htr with rfl | ⟨t2, rfl, ht2⟩
                · rw [runTopNil]
                · rw [runTag8, hUtr t2 ht2 (by simpa using hlen)]
                  rfl
        by_cases hb12 : b = 12
        · subst hb12
          rw [runTag12] at h
          obtain ⟨⟨cnt, restU, sU, dU⟩, hu, h⟩ := DRes.bind_eq_ok h
          simp only [] at h
          obtain ⟨rfl, rfl, preU, hUne, hUeq, hUpar, hUtr⟩ :=
            dReadUint32_split in' s d cnt restU sU dU hu
          obtain ⟨⟨bsv, restB, sB, dB⟩, hbr, h⟩ := DRes.bind_eq_ok h
          simp only [] at h
          obtain ⟨rfl, rfl, hBeq, hBpar, hBtr⟩ :=
            dReadBytes_split cnt restU s d bsv restB sB dB hbr
          simp only [DRes.ok.injEq, Prod.mk.injEq, DecSt.mk.injEq] at h
          obtain ⟨rfl, rfl, rfl, rfl⟩ := h
          refine ⟨12 :: (preU ++ bsv), by rw [hUeq, hBeq]; simp, fun _ => by simp, ?_, ?_⟩
          · intro rest2
            rw [List.cons_append, List.append_assoc, runTag12, hUpar (bsv ++ rest2)]
            simp only [DRes.ok_bind]
            rw [hBpar rest2]
            rfl
          · intro tr htr hlen
            rcases front_cons_cases tr 12 (preU ++ bsv) htr with rfl | ⟨t2, rfl, ht2⟩
            · rw [runTopNil]
            · simp only [List.length_cons, List.length_append] at hlen
              rcases front_append_cases t2 preU bsv ht2 with ⟨hU, hUle⟩ | ⟨t3, rfl, ht3⟩
              · by_cases heq : t2.length = preU.length
                · obtain rfl := hU.eq_of_length heq
                  rw [runTag12]
                  have h0 := hUpar []
                  rw [List.append_nil] at h0
                  rw [h0]
                  simp only [DRes.ok_bind]
                  have hbne : bsv ≠ [] := by
                    intro hb
                    subst hb
                    simp only [List.length_nil] at hlen
                    omega
                  rw [hBtr [] List.nil_prefix
                    (by simpa using List.length_pos.mpr hbne)]
                  rfl
                · rw [runTag12, hUtr t2 hU (by omega)]
                  rfl
              · rw [runTag12, hUpar t3]
                simp only [DRes.ok_bind]
                rw [hBtr t3 ht3 (by simp only [List.length_append] at hlen; omega)]
                rfl
        -- unknown tag: the run raises, contradicting success
        exfalso
        simp only [run, dGetByte, DRes.ok_bind] at h
        rw [if_neg hb0, if_neg hb1, if_neg hb13, if_neg hb2, if_neg hb3, if_neg hb4,
          if_neg hb5, if_neg hb6, if_neg hb7, if_neg hb8, if_neg hb12] at h
        simp at h
    | .arrLoop n acc =>
      cases n with
      | zero =>
        rw [runArr0] at h
        simp only [DRes.ok.injEq, Prod.mk.injEq, DecSt.mk.injEq] at h
        obtain ⟨rfl, rfl, rfl, rfl⟩ := h
        refine ⟨[], rfl, (by intro hh; cases hh), ?_, ?_⟩
        · intro rest2
          rw [List.nil_append, runArr0]
        · intro tr htr hlen
          simp at hlen
      | succ m =>
        rw [runArrS] at h
        obtain ⟨⟨v1, restA, sA, dA⟩, h1, h⟩ := DRes.bind_eq_ok h
        simp only [] at h
        obtain ⟨preH, hHeq, hHne, hHpar, hHtr⟩ := ih .top inp s d v1 restA sA dA h1
        obtain ⟨preL, hLeq, _, hLpar, hLtr⟩ :=
          ih (.arrLoop m (acc ++ [v1])) restA sA dA v rest s1 d1 h
        refine ⟨preH ++ preL, by rw [hHeq, hLeq, List.append_assoc],
          (by intro hh; cases hh), ?_, ?_⟩
        · intro rest2
          rw [List.append_assoc, runArrS, hHpar (preL ++ rest2)]
          simp only [DRes.ok_bind]
          exact hLpar rest2
        · intro tr htr hlen
          rcases front_append_cases tr preH preL htr with ⟨hH, hHle⟩ | ⟨t2, rfl, ht2⟩
          · by_cases heq : tr.length = preH.length
            · obtain rfl := hH.eq_of_length heq
              rw [runArrS]
              have h0 := hHpar []
              rw [List.append_nil] at h0
              rw [h0]
              simp only [DRes.ok_bind]
              have hLne : preL ≠ [] := by
                intro hb
                subst hb
                simp only [List.append_nil] at hlen
                omega
              exact hLtr [] List.nil_prefix
                (by simpa using List.length_pos.mpr hLne)
            · rw [runArrS, hHtr tr hH (by omega)]
              rfl
          · rw [runArrS, hHpar t2]
            simp only [DRes.ok_bind]
            exact hLtr t2 ht2 (by simp only [List.length_append] at hlen; omega)
    | .mapLoop n acc =>
      cases n with
      | zero =>
        rw [runMap0] at h
        simp only [DRes.ok.injEq, Prod.mk.injEq, DecSt.mk.injEq] at h
        obtain ⟨rfl, rfl, rfl, rfl⟩ := h
        refine ⟨[], rfl, (by intro hh; cases hh), ?_, ?_⟩
        · intro rest2
          rw [List.nil_append, runMap0]
        · intro tr htr hlen
          simp at hlen
      | succ m =>
        rw [runMapS] at h
        obtain ⟨⟨kv, restK, sK, dK⟩, h1, h⟩ := DRes.bind_eq_ok h
        simp only [] at h
        obtain ⟨⟨vv, restV, sV, dV⟩, h2, h⟩ := DRes.bind_eq_ok h
        simp only [] at h
        obtain ⟨preK, hKeq, hKne, hKpar, hKtr⟩ := ih .top inp s d kv restK sK dK h1
        obtain ⟨preV, hVeq, hVne, hVpar, hVtr⟩ := ih .top restK sK dK vv restV sV dV h2
        cases hdi : dictInsert acc kv vv with
        | none => rw [hdi] at h; simp at h
        | some acc2 =>
          rw [hdi] at h
          obtain ⟨preL, hLeq, _, hLpar, hLtr⟩ :=
            ih (.mapLoop m acc2) restV sV dV v rest s1 d1 h
          refine ⟨preK ++ (preV ++ preL), by rw [hKeq, hVeq, hLeq]; simp,
            (by intro hh; cases hh), ?_, ?_⟩
          · intro rest2
            rw [show (preK ++ (preV ++ preL)) ++ rest2 =
              preK ++ (preV ++ (preL ++ rest2)) from by simp]
            rw [runMapS, hKpar (preV ++ (preL ++ rest2))]
            simp only [DRes.ok_bind]
            rw [hVpar (preL ++ rest2)]
            simp only [DRes.ok_bind]
            rw [hdi]
            exact hLpar rest2
          · intro tr htr hlen
            rcases front_append_cases tr preK (preV ++ preL) htr
              with ⟨hK, hKle⟩ | ⟨t2, rfl, ht2⟩
            · by_cases heq : tr.length = preK.length
              · obtain rfl := hK.eq_of_length heq
                rw [runMapS]
                have h0 := hKpar []
                rw [List.append_nil] at h0
                rw [h0]
                simp only [DRes.ok_bind]
                rw [hVtr [] List.nil_prefix
                  (by simpa using List.length_pos.mpr (hVne rfl))]
                rfl
              · rw [runMapS, hKtr tr hK (by omega)]
                rfl
            · rcases front_append_cases t2 preV preL ht2
                with ⟨hV, hVle⟩ | ⟨t3, rfl, ht3⟩
              · by_cases heq : t2.length = preV.length
                · obtain rfl := hV.eq_of_length heq
                  rw [runMapS, hKpar t2]
                  simp only [DRes.ok_bind]
                  have h0 := hVpar []
                  rw [List.append_nil] at h0
                  rw [h0]
                  simp only [DRes.ok_bind]
                  rw [hdi]
                  have hLne : preL ≠ [] := by
                    intro hb
                    subst hb
                    simp only [List.length_append, List.length_nil] at hlen
                    omega
                  exact hLtr [] List.nil_prefix
                    (by simpa using List.length_pos.mpr hLne)
                · rw [runMapS, hKpar t2]
                  simp only [DRes.ok_bind]
                  rw [hVtr t2 hV (by omega)]
                  rfl
              · rw [runMapS, hKpar (preV ++ t3)]
                simp only [DRes.ok_bind]
                rw [hVpar t3]
                simp only [DRes.ok_bind]
                rw [hdi]
                exact hLtr t3 ht3 (by simp only [List.length_append] at hlen; omega)

/-- A successful run never grows the input, and a successful
`read_object` consumes at least its tag byte. -/
theorem run_consume (cfg : DecCfg) (fuel : Nat) (req : Req) (st : DecSt) (v : Value)
    (st₁ : DecSt) (h : run cfg fuel req st = .ok (v, st₁)) :
    st₁.input.length ≤ st.input.length ∧
      (req = .top → st₁.input.length < st.input.length) := by
  obtain ⟨inp, s, d⟩ := st
  obtain ⟨rest, s1, d1⟩ := st₁
  obtain ⟨pre, hEq, hne, _, _⟩ := run_split cfg fuel req inp s d v rest s1 d1 h
  subst hEq
  constructor
  · show rest.length ≤ (pre ++ rest).length
    simp only [List.length_append]
    omega
  · intro ht
    have h2 : 0 < pre.length := List.length_pos.mpr (hne ht)
    show rest.length < (pre ++ rest).length
    simp only [List.length_append]
    omega

/-- A successful varint read consumes at least one byte. -/
theorem dReadUint32_consume (st : DecSt) (n : Nat) (st₂ : DecSt)
    (h : dReadUint32 st = .ok (n, st₂)) : st₂.input.length < st.input.length := by
  obtain ⟨inp, s, d⟩ := st
  obtain ⟨rest, s2, d2⟩ := st₂
  obtain ⟨_, _, pre, hne, hEq, _, _⟩ := dReadUint32_split inp s d n rest s2 d2 h
  subst hEq
  have h2 : 0 < pre.length := List.length_pos.mpr hne
  show rest.length < (pre ++ rest).length
  simp only [List.length_append]
  omega

theorem dReadUint32_ne_fuelOut (st : DecSt) : dReadUint32 st ≠ .fuelOut := by
  rw [dReadUint32]
  cases hd : decodeUint32L st.input with
  | none => simp
  | some p =>
    obtain ⟨n, r⟩ := p
    simp

theorem dReadBytes_ne_fuelOut : ∀ (n : Nat) (st : DecSt), dReadBytes n st ≠ .fuelOut := by
  intro n
  induction n with
  | zero =>
    intro st
    rw [dReadBytes]
    simp
  | succ n ih =>
    intro st
    rw [dReadBytes]
    cases hi : st.input with
    | nil => simp
    | cons b r =>
      simp only []
      cases hb : dReadBytes n { st with input := r } with
      | ok p => simp [hb]
      | err => simp [hb]
      | fuelOut => exact absurd hb (ih _)

theorem DRes.bind_ne_fuelOut {α β : Type} {x : DRes α} {f : α → DRes β}
    (hx : x ≠ .fuelOut) (hf : ∀ a, f a ≠ .fuelOut) : x.bind f ≠ .fuelOut := by
  cases x with
  | ok a => exact hf a
  | err => simp
  | fuelOut => exact absurd rfl hx

/-- Inversion for a fuel-exhausted `DRes.bind`. -/
theorem DRes.bind_eq_fuelOut {α β : Type} {x : DRes α} {f : α → DRes β}
    (h : x.bind f = .fuelOut) : x = .fuelOut ∨ ∃ a, x = .ok a ∧ f a = .fuelOut := by
  cases x with
  | ok a => exact Or.inr ⟨a, rfl, h⟩
  | err => simp at h
  | fuelOut => exact Or.inl rfl

/-- Fuel needed by a pending request beyond twice the input length:
one step for a `read_object` dispatch, two for a loop iteration. -/
def reqCost : Req → Nat
  | .top => 1
  | .arrLoop _ _ => 2
  | .mapLoop _ _ => 2

/-- With fuel at least `2·|input| + reqCost`, `run` never exhausts its
fuel: `decFuel` is always enough, so `DRes.fuelOut` is unreachable
from `planktonDecode` and the fuel is a faithful model of the
unbounded Python recursion. -/
theorem run_no_fuelOut (cfg : DecCfg) :
    ∀ (fuel : Nat) (req : Req) (st : DecSt),
      2 * st.input.length + reqCost req ≤ fuel →
      run cfg fuel req st ≠ .fuelOut := by
  intro fuel
  induction fuel with
  | zero =>
    intro req st hle
    cases req <;> simp [reqCost] at hle
  | succ fuel ih =>
    intro req st hle h
    match req with
    | .top =>
      obtain ⟨inp, s, d⟩ := st
      cases inp with
      | nil =>
        rw [runTopNil] at h
        simp at h
      | cons b in' =>
        have hle' : 2 * in'.length + 3 ≤ fuel + 1 := by
          simp only [reqCost, List.length_cons] at hle
          omega
        by_cases hb0 : b = 0
        · subst hb0
          rw [runTag0] at h
          exact DRes.bind_ne_fuelOut (dReadUint32_ne_fuelOut _) (fun nt => by simp) h
        by_cases hb1 : b = 1
        · subst hb1
          rw [runTag1] at h
          exact DRes.bind_ne_fuelOut (dReadUint32_ne_fuelOut _)
            (fun nt => DRes.bind_ne_fuelOut (dReadBytes_ne_fuelOut _ _)
              (fun bs => by simp)) h
        by_cases hb13 : b = 13
        · subst hb13
          rw [runTag13] at h
          refine DRes.bind_ne_fuelOut (dReadUint32_ne_fuelOut _) (fun et => ?_) h
          refine DRes.bind_ne_fuelOut (dReadUint32_ne_fuelOut _) (fun nt => ?_)
          refine DRes.bind_ne_fuelOut (dReadBytes_ne_fuelOut _ _) (fun bs => ?_)
          split
          · split <;> simp
          · simp
        by_cases hb2 : b = 2
        · subst hb2
          rw [runTag2] at h
          rcases DRes.bind_eq_fuelOut h with hu | ⟨⟨cnt, st2⟩, hu, h2⟩
          · exact dReadUint32_ne_fuelOut _ hu
          · have hlt : st2.input.length < in'.length := dReadUint32_consume _ _ _ hu
            simp only [] at h2
            exact ih (.arrLoop cnt []) st2
              (by show 2 * st2.input.length + 2 ≤ fuel; omega) h2
        by_cases hb3 : b = 3
        · subst hb3
          rw [runTag3] at h
          rcases DRes.bind_eq_fuelOut h with hu | ⟨⟨cnt, st2⟩, hu, h2⟩
          · exact dReadUint32_ne_fuelOut _ hu
          · have hlt : st2.input.length < in'.length := dReadUint32_consume _ _ _ hu
            simp only [] at h2
            exact ih (.mapLoop cnt []) st2
              (by show 2 * st2.input.length + 2 ≤ fuel; omega) h2
        by_cases hb4 : b = 4
        · subst hb4
          rw [runTag4] at h
          simp at h
        by_cases hb5 : b = 5
        · subst hb5
          rw [runTag5] at h
          simp at h
        by_cases hb6 : b = 6
        · subst hb6
          rw [runTag6] at h
          simp at h
        by_cases hb7 : b = 7
        · subst hb7
          rw [runTag7] at h
          rcases DRes.bind_eq_fuelOut h with hu | ⟨⟨fieldc, st2⟩, hu, h2⟩
          · exact dReadUint32_ne_fuelOut _ hu
          · have hlt2 : st2.input.length < in'.length := dReadUint32_consume _ _ _ hu
            simp only [] at h2
            rcases DRes.bind_eq_fuelOut h2 with hh | ⟨⟨hv, st3⟩, hh, h3⟩
            · exact ih .top { st2 with slots := st2.slots ++ [none] }
                (by show 2 * st2.input.length + 1 ≤ fuel; omega) hh
            · have hlt3 : st3.input.length < st2.input.length :=
                (run_consume cfg fuel .top _ _ _ hh).2 rfl
              simp only [] at h3
              by_cases hcd : cfg.hasDefaultObject = true
              case neg => rw [if_neg hcd] at h3; simp at h3
              case pos =>
              rw [if_pos hcd] at h3
              rcases DRes.bind_eq_fuelOut h3 with hm | ⟨⟨pv, st5⟩, hm, h4⟩
              · exact ih (.mapLoop fieldc []) _
                  (by show 2 * st3.input.length + 2 ≤ fuel; omega) hm
              · simp only [] at h4
                cases pv <;> simp at h4
        by_cases hb8 : b = 8
        · subst hb8
          rw [runTag8] at h
          refine DRes.bind_ne_fuelOut (dReadUint32_ne_fuelOut _) (fun ot => ?_) h
          split
          · split <;> simp
          · simp
        by_cases hb12 : b = 12
        · subst hb12
          rw [runTag12] at h
          exact DRes.bind_ne_fuelOut (dReadUint32_ne_fuelOut _)
            (fun nt => DRes.bind_ne_fuelOut (dReadBytes_ne_fuelOut _ _)
              (fun bs => by simp)) h
        -- unknown tag: the run raises, never exhausting fuel
        simp only [run, dGetByte, DRes.ok_bind] at h
        rw [if_neg hb0, if_neg hb1, if_neg hb13, if_neg hb2, if_neg hb3, if_neg hb4,
          if_neg hb5, if_neg hb6, if_neg hb7, if_neg hb8, if_neg hb12] at h
        simp at h
    | .arrLoop n acc =>
      have hle' : 2 * st.input.length + 2 ≤ fuel + 1 := by
        simp only [reqCost] at hle
        omega
      cases n with
      | zero =>
        rw [runArr0] at h
        simp at h
      | succ m =>
        rw [runArrS] at h
        rcases DRes.bind_eq_fuelOut h with h1 | ⟨⟨v1, st2⟩, h1, h2⟩
        · exact ih .top st (by show 2 * st.input.length + 1 ≤ fuel; omega) h1
        · have hlt : st2.input.length < st.input.length :=
            (run_consume cfg fuel .top st v1 st2 h1).2 rfl
          simp only [] at h2
          exact ih (.arrLoop m (acc ++ [v1])) st2
            (by show 2 * st2.input.length + 2 ≤ fuel; omega) h2
    | .mapLoop n acc =>
      have hle' : 2 * st.input.length + 2 ≤ fuel + 1 := by
        simp only [reqCost] at hle
        omega
      cases n with
      | zero =>
        rw [runMap0] at h
        simp at h
      | succ m =>
        rw [runMapS] at h
        rcases DRes.bind_eq_fuelOut h with h1 | ⟨⟨kv, st2⟩, h1, h2⟩
        · exact ih .top st (by show 2 * st.input.length + 1 ≤ fuel; omega) h1
        · have hlt2 : st2.input.length < st.input.length :=
            (run_consume cfg fuel .top st kv st2 h1).2 rfl
          simp only [] at h2
          rcases DRes.bind_eq_fuelOut h2 with h3 | ⟨⟨vv, st3⟩, h3, h4⟩
          · exact ih .top st2 (by show 2 * st2.input.length + 1 ≤ fuel; omega) h3
          · have hlt3 : st3.input.length < st2.input.length :=
              (run_consume cfg fuel .top st2 vv st3 h3).2 rfl
            simp only [] at h4
            cases hdi : dictInsert acc kv vv with
            | none => rw [hdi] at h4; simp at h4
            | some acc2 =>
              rw [hdi] at h4
              simp only [] at h4
              exact ih (.mapLoop m acc2) st3
                (by show 2 * st3.input.length + 2 ≤ fuel; omega) h4

/-- A successful run stays successful, with the same result, when the
fuel is increased by one. -/
theorem run_ok_mono (cfg : DecCfg) :
    ∀ (fuel : Nat) (req : Req) (st : DecSt) (r : Value × DecSt),
      run cfg fuel req st = .ok r → run cfg (fuel + 1) req st = .ok r := by
  intro fuel
  induction fuel with
  | zero =>
    intro req st r h
    exact absurd h (by simp [run])
  | succ fuel ih =>
    intro req st r h
    match req with
    | .top =>
      obtain ⟨inp, s, d⟩ := st
      cases inp with
      | nil =>
        rw [runTopNil] at h
        simp at h
      | cons b in' =>
        by_cases hb0 : b = 0
        · subst hb0; rw [runTag0] at h; rw [runTag0]; exact h
        by_cases hb1 : b = 1
        · subst hb1; rw [runTag1] at h; rw [runTag1]; exact h
        by_cases hb13 : b = 13
        · subst hb13; rw [runTag13] at h; rw [runTag13]; exact h
        by_cases hb2 : b = 2
        · subst hb2
          rw [runTag2] at h
          rw [runTag2]
          obtain ⟨⟨cnt, st2⟩, hu, h2⟩ := DRes.bind_eq_ok h
          rw [hu]
          simp only [DRes.ok_bind]
          simp only [] at h2
          exact ih _ _ _ h2
        by_cases hb3 : b = 3
        · subst hb3
          rw [runTag3] at h
          rw [runTag3]
          obtain ⟨⟨cnt, st2⟩, hu, h2⟩ := DRes.bind_eq_ok h
          rw [hu]
          simp only [DRes.ok_bind]
          simp only [] at h2
          exact ih _ _ _ h2
        by_cases hb4 : b = 4
        · subst hb4; rw [runTag4] at h; rw [runTag4]; exact h
        by_cases hb5 : b = 5
        · subst hb5; rw [runTag5] at h; rw [runTag5]; exact h
        by_cases hb6 : b = 6
        · subst hb6; rw [runTag6] at h; rw [runTag6]; exact h
        by_cases hb7 : b = 7
        · subst hb7
          rw [runTag7] at h
          rw [runTag7]
          obtain ⟨⟨fieldc, st2⟩, hu, h2⟩ := DRes.bind_eq_ok h
          rw [hu]
          simp only [DRes.ok_bind]
          simp only [] at h2
          obtain ⟨⟨hv, st3⟩, hh, h3⟩ := DRes.bind_eq_ok h2
          rw [ih _ _ _ hh]
          simp only [DRes.ok_bind]
          simp only [] at h3
          by_cases hcd : cfg.hasDefaultObject = true
          case neg => rw [if_neg hcd] at h3; simp at h3
          case pos =>
          rw [if_pos hcd] at h3
          rw [if_pos hcd]
          obtain ⟨⟨pv, st5⟩, hm, h4⟩ := DRes.bind_eq_ok h3
          rw [ih _ _ _ hm]
          simp only [DRes.ok_bind]
          simp only [] at h4
          exact h4
        by_cases hb8 : b = 8
        · subst hb8; rw [runTag8] at h; rw [runTag8]; exact h
        by_cases hb12 : b = 12
        · subst hb12; rw [runTag12] at h; rw [runTag12]; exact h
        exfalso
        simp only [run, dGetByte, DRes.ok_bind] at h
        rw [if_neg hb0, if_neg hb1, if_neg hb13, if_neg hb2, if_neg hb3, if_neg hb4,
          if_neg hb5, if_neg hb6, if_neg hb7, if_neg hb8, if_neg hb12] at h
        simp at h
    | .arrLoop n acc =>
      cases n with
      | zero =>
        rw [runArr0] at h
        rw [runArr0]
        exact h
      | succ m =>
        rw [runArrS] at h
        rw [runArrS]
        obtain ⟨⟨v1, st2⟩, h1, h2⟩ := DRes.bind_eq_ok h
        rw [ih _ _ _ h1]
        simp only [DRes.ok_bind]
        simp only [] at h2
        exact ih _ _ _ h2
    | .mapLoop n acc =>
      cases n with
      | zero =>
        rw [runMap0] at h
        rw [runMap0]
        exact h
      | succ m =>
        rw [runMapS] at h
        rw [runMapS]
        obtain ⟨⟨kv, st2⟩, h1, h2⟩ := DRes.bind_eq_ok h
        rw [ih _ _ _ h1]
        simp only [DRes.ok_bind]
        simp only [] at h2
        obtain ⟨⟨vv, st3⟩, h3, h4⟩ := DRes.bind_eq_ok h2
        rw [ih _ _ _ h3]
        simp only [DRes.ok_bind]
        simp only [] at h4
        cases hdi : dictInsert acc kv vv with
        | none => rw [hdi] at h4; simp at h4
        | some acc2 =>
          rw [hdi] at h4
          simp only [] at h4
          simp only []
          exact ih _ _ _ h4

/-- A successful run stays successful at any larger fuel. -/
theorem run_ok_le (cfg : DecCfg) (f f' : Nat) (req : Req) (st : DecSt) (r : Value × DecSt)
    (hle : f ≤ f') (h : run cfg f req st = .ok r) : run cfg f' req st = .ok r := by
  induction f' with
  | zero =>
    obtain rfl : f = 0 := by omega
    exact absurd h (by simp [run])
  | succ k ihk =>
    rcases Nat.lt_or_ge f (k + 1) with hlt | hge
    · exact run_ok_mono cfg k req st r (ihk (by omega))
    · obtain rfl : f = k + 1 := by omega
      exact h

/-- C6: truncating a valid encoded buffer — one `Decoder.decode`
accepts while consuming every byte — by its last byte makes decode on
the truncated buffer raise a malformed-input error (`DRes.err`, the
model of the IndexError/KeyError/unknown-tag exceptions): it never
returns a value, partial or default. -/
theorem truncation_malformed (bs : List Nat) (v : Value) (st' : DecSt)
    (h : planktonDecode bs = .ok (v, st')) (hall : st'.input = []) :
    planktonDecode bs.dropLast = .err := by
  obtain ⟨rest, s1, d1⟩ := st'
  simp only [] at hall
  subst hall
  have hne : bs ≠ [] := by
    intro h0
    subst h0
    rw [show planktonDecode ([] : List Nat) = .err from rfl] at h
    simp at h
  rw [planktonDecode] at h
  obtain ⟨pre, hEq, _, _, htr⟩ := run_split ⟨true, true⟩ (decFuel bs) .top bs [] [] v [] s1 d1 h
  rw [List.append_nil] at hEq
  subst hEq
  have herr : run ⟨true, true⟩ (decFuel bs) .top ⟨bs.dropLast, [], []⟩ = .err := by
    refine htr bs.dropLast ?_ ?_
    · exact List.dropLast_prefix bs
    · have h1 := List.length_dropLast bs
      have hpos : 0 < bs.length := List.length_pos.mpr hne
      omega
  rw [planktonDecode]
  cases hres : run ⟨true, true⟩ (decFuel bs.dropLast) .top (decInit bs.dropLast) with
  | err => rfl
  | ok r2 =>
    exfalso
    have hfull := run_ok_le ⟨true, true⟩ (decFuel bs.dropLast) (decFuel bs) .top
      (decInit bs.dropLast) r2
      (by simp only [decFuel]; have h1 := List.length_dropLast bs; omega) hres
    rw [show decInit bs.dropLast = (⟨bs.dropLast, [], []⟩ : DecSt) from rfl] at hfull
    rw [herr] at hfull
    simp at hfull
  | fuelOut =>
    exfalso
    refine run_no_fuelOut ⟨true, true⟩ (decFuel bs.dropLast) .top (decInit bs.dropLast) ?_ hres
    show 2 * bs.dropLast.length + 1 ≤ 2 * bs.dropLast.length + 2
    omega

/-- Witness for C6: the buffer `[2, 1, 0, 2]` — the encoding of the
array `[1]` — decodes fully; with its last byte removed, decode
raises. -/
theorem truncation_malformed_witness :
    planktonDecode [2, 1, 0, 2] = .ok (.arr [.int 1], ⟨[], [], []⟩) ∧
      planktonDecode (([2, 1, 0, 2] : List Nat).dropLast) = .err :=
  ⟨rfl, truncation_malformed [2, 1, 0, 2] (.arr [.int 1]) ⟨[], [], []⟩ rfl rfl⟩

end Plankton


